import Mathlib

/-!
Verification of the `nonvalid` validation engine (src/nonvalid.js).

The engine walks a data value and a schema in lock-step.  Schema nodes are
classified dynamically: functions are callbacks, plain objects and arrays are
container shapes, everything else is a literal compared with JS strict
equality.  The instance keeps mutable session state: a stack of callback
values (`values`), a stack of ancestor containers (`funnel`), a parallel key
stack (`path`), a latched error path (`errorPath`), nesting counters and the
`started`/`finished` lifecycle flags.

The embedding below mirrors the source functions (`doInspect`, `inspect`,
`inspectKey`, `inspectObject`, `inspectArray`, `validateObjectSchema`,
`validateArraySchema`, `run`, the validator entry point, `errorPath()`,
`up()`, the `wrapIfSafe` proxy getter and the matcher wrapper) over an
inductive model of JavaScript values.  Callbacks are modelled by a small
command language `Cb` that can return a value computed from the current
value and key, throw, re-enter the validator, sequence, and catch — which is
what schema callbacks do in the engine's own test-suite.  The interpreter is
fuel-indexed (the distinguished `JsErr.fuelOut` result never occurs for
sufficient fuel and is not a JavaScript behaviour); it also keeps a ghost
event log recording callback entries, comparison results and check outcomes,
used only to state specifications.
-/

/-- JavaScript numbers as needed here: finite (integral) values plus the
three non-finite sentinels.  Strict equality on `nan` is always false. -/
inductive JsNum where
  | fin (n : Int)
  | nan
  | inf
  | ninf
deriving DecidableEq, Repr

/-- Property keys: `idx n` is a canonical non-negative-integer-like key
(array indices and integer-like object keys), `str` any other textual key,
`sym i` a symbol key identified by `i`.  Symbol ids 0, 1, 2 are reserved for
the `other`, `error` and `end` marker tokens of the library. -/
inductive JsKey where
  | idx (n : Nat)
  | str (s : String)
  | sym (i : Nat)
deriving DecidableEq, Repr

/-- Exceptions: `js msg` models a thrown JavaScript `Error(msg)`;
`fuelOut` is the out-of-fuel marker of the embedding (not a JS behaviour). -/
inductive JsErr where
  | js (msg : String)
  | fuelOut
deriving DecidableEq, Repr

/-- JavaScript values.  Functions carry only their identity (strict
equality on functions is reference equality in JS); the program a function
runs is resolved through a `CbEnv` environment, mirroring references.
Arrays may have holes (`none` entries), which matters for array schemas;
objects are insertion-ordered entry lists. -/
inductive JsValue where
  | undefined
  | null
  | bool (b : Bool)
  | num (n : JsNum)
  | str (s : String)
  | bigint (i : Int)
  | sym (i : Nat)
  | func (id : Nat)
  | arr (elems : List (Option JsValue))
  | obj (entries : List (JsKey × JsValue))
deriving Repr

/-- Callback programs: what a schema callback may do when invoked with the
current value and key.  `ret` computes a result, `throwCb` raises,
`callValidator` re-enters the validator (with an explicit value or using the
current one), `bind` sequences, `tryCatch` swallows a thrown `Error`. -/
inductive Cb where
  | ret (f : JsValue → Option JsKey → JsValue)
  | throwCb (msg : String)
  | callValidator (explicitValue : Option JsValue) (schema : JsValue)
  | bind (c : Cb) (k : JsValue → Cb)
  | tryCatch (c : Cb) (handler : Cb)

/-- Resolves a function value's identity to the callback program it runs. -/
def CbEnv : Type := Nat → Cb

/-- The reserved marker tokens `symbols.other`, `symbols.error`,
`symbols.end` (identified as symbol ids 0, 1, 2). -/
def otherSymId : Nat := 0

def errorSymId : Nat := 1

def endSymId : Nat := 2

/-- JS truthiness: `undefined`, `null`, `false`, `0`, `NaN`, `""` and `0n`
are falsy, everything else truthy. -/
def truthy : JsValue → Bool
  | .undefined => false
  | .null => false
  | .bool b => b
  | .num (.fin n) => n != 0
  | .num .nan => false
  | .num _ => true
  | .str s => s ≠ ""
  | .bigint i => i != 0
  | _ => true

/-- Strict equality on numbers: `NaN` is equal to nothing, including
itself. -/
def jsNumEq : JsNum → JsNum → Bool
  | .fin a, .fin b => a == b
  | .inf, .inf => true
  | .ninf, .ninf => true
  | _, _ => false

/-- JS strict equality `===` as used by the engine.  Primitives compare by
value, symbols and functions by identity; objects and arrays compare by
reference, which distinct terms of this model never share, so they compare
unequal (the engine never routes a container to the literal branch anyway). -/
def jsStrictEq : JsValue → JsValue → Bool
  | .undefined, .undefined => true
  | .null, .null => true
  | .bool a, .bool b => a == b
  | .num a, .num b => jsNumEq a b
  | .str a, .str b => a == b
  | .bigint a, .bigint b => a == b
  | .sym a, .sym b => a == b
  | .func a, .func b => a == b
  | _, _ => false

/-- Matcher `matchers.object`: a non-null non-array `typeof  === "object"` value. -/
def isObjectV : JsValue → Bool
  | .obj _ => true
  | _ => false

/-- Matcher `matchers.array`. -/
def isArrayV : JsValue → Bool
  | .arr _ => true
  | _ => false

/-- Matcher `matchers.function`. -/
def isFuncV : JsValue → Bool
  | .func _ => true
  | _ => false

/-- Matcher `matchers.undefined`. -/
def isUndefV : JsValue → Bool
  | .undefined => true
  | _ => false

/-- Matcher `matchers.symbol`. -/
def isSymV : JsValue → Bool
  | .sym _ => true
  | _ => false

/-- Matcher `matchers.string`. -/
def isStringV : JsValue → Bool
  | .str _ => true
  | _ => false

/-- Matcher `matchers.number`: finite numbers only. -/
def isNumberV : JsValue → Bool
  | .num (.fin _) => true
  | _ => false

/-- The key-classification helpers for enumeration order. -/
def JsKey.isIdx : JsKey → Bool
  | .idx _ => true
  | _ => false

/-- Textual non-integer-like keys. -/
def JsKey.isStr : JsKey → Bool
  | .str _ => true
  | _ => false

/-- Symbol keys. -/
def JsKey.isSym : JsKey → Bool
  | .sym _ => true
  | _ => false

/-- The numeric value of an integer-like key (0 otherwise). -/
def JsKey.idxVal : JsKey → Nat
  | .idx n => n
  | _ => 0

/-- Insert an entry into a list of entries sorted by ascending integer-like
key value. -/
def insertByIdx (p : JsKey × JsValue) : List (JsKey × JsValue) → List (JsKey × JsValue)
  | [] => [p]
  | q :: rest =>
      if p.1.idxVal ≤ q.1.idxVal then p :: q :: rest else q :: insertByIdx p rest

/-- Sort entries by ascending integer-like key value. -/
def sortByIdx (l : List (JsKey × JsValue)) : List (JsKey × JsValue) :=
  l.foldr insertByIdx []

/-- The engine's `allEntries`: `Object.entries` (integer-like keys in
ascending order, then other string keys in insertion order) followed by
`Object.getOwnPropertySymbols` (symbol keys in insertion order). -/
def allEntries (l : List (JsKey × JsValue)) : List (JsKey × JsValue) :=
  sortByIdx (l.filter (fun p => p.1.isIdx))
    ++ l.filter (fun p => p.1.isStr)
    ++ l.filter (fun p => p.1.isSym)

/-- Property test `Object.hasOwnProperty.call(object, key)` for the model: objects own the
keys of their entry list; arrays own in-range non-hole indices. -/
def jsHasProp : JsValue → JsKey → Bool
  | .obj entries, k => entries.any (fun p => p.1 = k)
  | .arr elems, .idx n => n < elems.length && (elems.getD n none).isSome
  | _, _ => false

/-- Property read `value[key]` for the model (`undefined` when absent). -/
def jsGet : JsValue → JsKey → JsValue
  | .obj entries, k => ((entries.find? (fun p => p.1 = k)).map Prod.snd).getD .undefined
  | .arr elems, .idx n => (elems.getD n none).getD .undefined
  | _, _ => .undefined

/-- Events of the ghost log (specification instrumentation only):
`cbEntry` records the spec-level ValueStack (ancestor chain including the
current value) and KeyStack at the moment a schema callback is invoked;
`cmp` records each comparison result together with the key stack at that
moment; `outcome d v` records each individual check outcome (a coerced
callback result, a literal comparison, a shape-mismatch sentinel or an
undeclared-member rejection) tagged with the callback-nesting depth `d` at
which it happened. -/
inductive Ev where
  | cbEntry (valueStack : List JsValue) (keyStack : List JsKey)
  | cmp (isErr : Bool) (keyStack : List JsKey)
  | outcome (depth : Nat) (v : JsValue)
deriving Repr

/-- The mutable instance state of a validator session, plus the ghost
fields `inCb` (callback nesting depth) and `log`. -/
structure St where
  values : List JsValue
  funnel : List JsValue
  path : List JsKey
  errorPath : Option (List JsKey)
  validatorDepth : Nat
  safeDepth : Nat
  started : Bool
  finished : Bool
  inCb : Nat
  log : List Ev
deriving Repr

/-- Reset helper `basicReset(final)`. -/
def basicResetSt (final : Bool) (st : St) : St :=
  { st with started := false, finished := final }

/-- Reset helper `reset(final)`: clears all session state (the ghost fields are not part
of the JS state and survive). -/
def resetSt (final : Bool) (st : St) : St :=
  { st with values := [], funnel := [], path := [], errorPath := none,
            validatorDepth := 0, safeDepth := 0, started := false, finished := final }

/-- Throw helper `resetAndThrow(error)` (polymorphic in the result type of the
function that throws). -/
def resetAndThrow {α : Type} (msg : String) (st : St) : Except JsErr α × St :=
  (.error (.js msg), resetSt true st)

/-- Reader `currentValue()`: top of the `values` stack. -/
def currentValue (st : St) : JsValue :=
  (st.values.getLast?).getD .undefined

/-- Reader `currentKey()`: top of the key stack, or absent at the root. -/
def currentKey (st : St) : Option JsKey :=
  st.path.getLast?

/-- The fresh state produced by `createInstance` (reset with
`final = false`). -/
def initSt : St :=
  { values := [], funnel := [], path := [], errorPath := none,
    validatorDepth := 0, safeDepth := 0, started := false, finished := false,
    inCb := 0, log := [] }

/-- Error message of the post-error continuation fault. -/
def cantProceedMsg : String := "Cannot proceed with validation after an error"

/-- Error message of the finished-session reuse fault. -/
def anotherValueMsg : String := "To validate another value, use nonvalid.instance()"

/-- Error message of a context-free validator call. -/
def noContextMsg : String := "Validator called with no value outside of any context"

/-- JS short-circuit `a || b` on values. -/
def jsOr (a b : JsValue) : JsValue :=
  if truthy a then a else b

/-- Reserved marker tokens used as object-schema keys
(`matchers.symbol(key) && symbolList.includes(key)`). -/
def reservedSymKey : JsKey → Bool
  | .sym i => i == otherSymId || i == errorSymId || i == endSymId
  | _ => false

/-- Configuration check `validateObjectSchema(schema)`: extracts the catch-other callback and
the shape-error override (kept as raw values, `undefined` when absent, as
in the source) and rejects malformed configurations and unexpected marker
keys with `resetAndThrow`. -/
def validateObjectSchema (entries : List (JsKey × JsValue)) (st : St) :
    Except JsErr (JsValue × JsValue) × St :=
  let catchOther := jsGet (.obj entries) (.sym otherSymId)
  if !isUndefV catchOther && !isFuncV catchOther then
    resetAndThrow "The catch-other callback must be a function" st
  else
    let shapeError := jsGet (.obj entries) (.sym errorSymId)
    if !isUndefV shapeError && (isFuncV shapeError || !truthy shapeError) then
      resetAndThrow "The shape error must be a non-function truthy value" st
    else if entries.any (fun p => p.1 = .sym endSymId) then
      resetAndThrow "Unexpected marker token in an object schema" st
    else
      (.ok (catchOther, shapeError), st)

/-- Whether an array-schema slot stops the `endIndex` scan: a hole
(`hasProperty` fails) or the end-of-array marker token. -/
def isEndStop : Option JsValue → Bool
  | none => true
  | some (.sym i) => i == endSymId
  | some _ => false

/-- The `endIndex` scan of `validateArraySchema`: index of the first hole
or end marker (the length when there is none). -/
def endIndexOf : List (Option JsValue) → Nat
  | [] => 0
  | o :: rest => if isEndStop o then 0 else endIndexOf rest + 1

/-- An array-schema slot holding a reserved marker other than the end
marker (`value !== symbols.end && symbolList.includes(value)`). -/
def badArraySym : Option JsValue → Bool
  | some (.sym i) => i == otherSymId || i == errorSymId
  | _ => false

/-- The scan over the slots after the end marker, accumulating the single
allowed catch-other callback and the single allowed truthy override. -/
def arrTailScan (tail : List (Option JsValue))
    (functional truthySlot : Option JsValue) (st : St) :
    Except JsErr (Option JsValue × Option JsValue) × St :=
  match tail with
  | [] => (.ok (functional, truthySlot), st)
  | o :: rest =>
      if isEndStop o then
        resetAndThrow "Encountered multiple end-of-array markers" st
      else
        let v := o.getD .undefined
        if isFuncV v then
          match functional with
          | some _ => resetAndThrow "Encountered multiple catch-other callbacks" st
          | none => arrTailScan rest (some v) truthySlot st
        else if truthy v then
          match truthySlot with
          | some _ => resetAndThrow "Encountered multiple shape error values" st
          | none => arrTailScan rest functional (some v) st
        else
          resetAndThrow "Shape error must be a truthy value" st

/-- Configuration check `validateArraySchema(schema)`: rejects reserved markers among the
slots, computes the end index, bounds the slots after the marker by two and
classifies them via `arrTailScan`. -/
def validateArraySchema (elems : List (Option JsValue)) (st : St) :
    Except JsErr (Nat × Option JsValue × Option JsValue) × St :=
  if elems.any badArraySym then
    resetAndThrow "Unexpected marker token in an array schema" st
  else
    let endIndex := endIndexOf elems
    if elems.length > endIndex + 3 then
      resetAndThrow "Found more than 2 elements after the end-of-array marker" st
    else
      match arrTailScan (elems.drop (endIndex + 1)) none none st with
      | (.ok (f, t), st') => (.ok (endIndex, f, t), st')
      | (.error e, st') => (.error e, st')

mutual

/-- The validator entry point (`validator(...args)`): guards finished
sessions at depth zero, tracks `validatorDepth`, resolves the one-argument
form against the current value, runs `inspect` and performs the completing
`basicReset` of a top-level call. -/
def validatorFn (fuel : Nat) (env : CbEnv) (explicitValue : Option JsValue)
    (schema : JsValue) (st : St) : Except JsErr JsValue × St :=
  match fuel with
  | 0 => (.error .fuelOut, st)
  | fuel + 1 =>
    if st.validatorDepth == 0 && st.finished then
      resetAndThrow anotherValueMsg st
    else
      let st := if st.validatorDepth == 0 then { st with started := true } else st
      let st := { st with validatorDepth := st.validatorDepth + 1 }
      if explicitValue.isNone && st.values.isEmpty then
        resetAndThrow noContextMsg st
      else
        let value := match explicitValue with
          | some v => v
          | none => currentValue st
        match inspect fuel env schema value st with
        | (.error e, st') => (.error e, st')
        | (.ok e, st') =>
            let st2 := { st' with validatorDepth := st'.validatorDepth - 1 }
            let st3 := if st2.validatorDepth == 0 then basicResetSt true st2 else st2
            (.ok e, st3)
termination_by (fuel, 0)

/-- Comparator `inspect(schema, value)`: delegates to `doInspect` and updates the
error-path latch — a truthy result latches the current key stack when no
path is latched, a falsy result clears the latch.  Emits a ghost `cmp`
event. -/
def inspect (fuel : Nat) (env : CbEnv) (schema value : JsValue) (st : St) :
    Except JsErr JsValue × St :=
  match fuel with
  | 0 => (.error .fuelOut, st)
  | fuel + 1 =>
    match doInspect fuel env schema value st with
    | (.error e, st') => (.error e, st')
    | (.ok e, st') =>
        let latched : Option (List JsKey) :=
          if truthy e then
            match st'.errorPath with
            | none => some st'.path
            | some p => some p
          else none
        (.ok e, { st' with errorPath := latched,
                           log := st'.log ++ [.cmp (truthy e) st'.path] })
termination_by (fuel, 0)

/-- Comparator `doInspect(schema, value)`: dynamic schema classification — functions
run as callbacks, objects and arrays go through the container comparators
(with the `inspectDeeper` funnel push around them, popped only on normal
return as in the source), anything else is a literal compared with strict
equality (emitting a ghost `outcome` event for the comparison). -/
def doInspect (fuel : Nat) (env : CbEnv) (schema value : JsValue) (st : St) :
    Except JsErr JsValue × St :=
  match fuel with
  | 0 => (.error .fuelOut, st)
  | fuel + 1 =>
    match schema with
    | .func id => run fuel env (env id) value st
    | .obj entries =>
        let st1 := { st with funnel := st.funnel ++ [value] }
        match inspectObject fuel env entries value st1 with
        | (.ok e, st2) => (.ok e, { st2 with funnel := st2.funnel.dropLast })
        | r => r
    | .arr elems =>
        let st1 := { st with funnel := st.funnel ++ [value] }
        match inspectArray fuel env elems value st1 with
        | (.ok e, st2) => (.ok e, { st2 with funnel := st2.funnel.dropLast })
        | r => r
    | lit =>
        let e := JsValue.bool (!jsStrictEq value lit)
        (.ok e, { st with log := st.log ++ [.outcome st.inCb e] })
termination_by (fuel, 0)

/-- Comparator `inspectKey(schema, value, key)`: pushes the key, inspects, pops the
key on normal return (the pop is skipped on an exception, as in the
source). -/
def inspectKey (fuel : Nat) (env : CbEnv) (schema value : JsValue) (key : JsKey)
    (st : St) : Except JsErr JsValue × St :=
  match fuel with
  | 0 => (.error .fuelOut, st)
  | fuel + 1 =>
    let st1 := { st with path := st.path ++ [key] }
    match inspect fuel env schema value st1 with
    | (.ok e, st2) => (.ok e, { st2 with path := st2.path.dropLast })
    | r => r
termination_by (fuel, 0)

/-- Comparator `inspectObject(schema, value)`: validates the schema configuration,
returns the override (or `true`) on shape mismatch, otherwise runs the
declared-keys pass then the undeclared-members pass. -/
def inspectObject (fuel : Nat) (env : CbEnv) (entries : List (JsKey × JsValue))
    (value : JsValue) (st : St) : Except JsErr JsValue × St :=
  match fuel with
  | 0 => (.error .fuelOut, st)
  | fuel + 1 =>
    match validateObjectSchema entries st with
    | (.error e, st') => (.error e, st')
    | (.ok (catchOther, shapeError), st') =>
        match value with
        | .obj ventries =>
            match objLoop1 fuel env (allEntries entries) value st' with
            | (.ok e, st2) =>
                if truthy e then (.ok e, st2)
                else objLoop2 fuel env (allEntries ventries) entries catchOther st2
            | r => r
        | _ =>
            let e := jsOr shapeError (.bool true)
            (.ok e, { st' with log := st'.log ++ [.outcome st'.inCb e] })
termination_by (fuel, 0)

/-- The declared-keys loop of `inspectObject`: iterates the schema's
entries in enumeration order, skipping reserved marker keys, recursing for
each key with the value's corresponding member and short-circuiting on the
first truthy result. -/
def objLoop1 (fuel : Nat) (env : CbEnv) (pending : List (JsKey × JsValue))
    (value : JsValue) (st : St) : Except JsErr JsValue × St :=
  match pending with
  | [] => (.ok (.bool false), st)
  | (key, sub) :: rest =>
      if reservedSymKey key then objLoop1 fuel env rest value st
      else
        match inspectKey fuel env sub (jsGet value key) key st with
        | (.ok e, st') =>
            if truthy e then (.ok e, st') else objLoop1 fuel env rest value st'
        | r => r
termination_by (fuel, pending.length + 1)

/-- The undeclared-members loop of `inspectObject`: iterates the value's
entries in enumeration order, skipping members declared in the schema;
each remaining member goes to the catch-other callback, or returns `true`
immediately when no catch-other callback is configured (emitting a ghost
`outcome` event for the rejection). -/
def objLoop2 (fuel : Nat) (env : CbEnv) (pending : List (JsKey × JsValue))
    (schemaEntries : List (JsKey × JsValue)) (catchOther : JsValue) (st : St) :
    Except JsErr JsValue × St :=
  match pending with
  | [] => (.ok (.bool false), st)
  | (key, sv) :: rest =>
      if jsHasProp (.obj schemaEntries) key then
        objLoop2 fuel env rest schemaEntries catchOther st
      else if isUndefV catchOther then
        (.ok (.bool true), { st with log := st.log ++ [.outcome st.inCb (.bool true)] })
      else
        match inspectKey fuel env catchOther sv key st with
        | (.ok e, st') =>
            if truthy e then (.ok e, st')
            else objLoop2 fuel env rest schemaEntries catchOther st'
        | r => r
termination_by (fuel, pending.length + 1)

/-- Comparator `inspectArray(schema, value)`: validates the schema slots, returns the
override (or `true`) on shape mismatch, otherwise compares the regular
prefix index by index and routes extra positions to the catch-other
callback. -/
def inspectArray (fuel : Nat) (env : CbEnv) (elems : List (Option JsValue))
    (value : JsValue) (st : St) : Except JsErr JsValue × St :=
  match fuel with
  | 0 => (.error .fuelOut, st)
  | fuel + 1 =>
    match validateArraySchema elems st with
    | (.error e, st') => (.error e, st')
    | (.ok (maxIndex, catchOther, truthySlot), st') =>
        match value with
        | .arr velems =>
            match arrLoop1 fuel env (elems.take maxIndex) 0 velems st' with
            | (.ok e, st2) =>
                if truthy e then (.ok e, st2)
                else arrLoop2 fuel env (velems.drop maxIndex) maxIndex catchOther st2
            | r => r
        | _ =>
            let e := jsOr (truthySlot.getD .undefined) (.bool true)
            (.ok e, { st' with log := st'.log ++ [.outcome st'.inCb e] })
termination_by (fuel, 0)

/-- The regular-prefix loop of `inspectArray`: position `idx` of the
schema against position `idx` of the value (holes and out-of-range
positions read as `undefined`). -/
def arrLoop1 (fuel : Nat) (env : CbEnv) (pending : List (Option JsValue))
    (idx : Nat) (velems : List (Option JsValue)) (st : St) :
    Except JsErr JsValue × St :=
  match pending with
  | [] => (.ok (.bool false), st)
  | o :: rest =>
      match inspectKey fuel env (o.getD .undefined) ((velems.getD idx none).getD .undefined)
          (.idx idx) st with
      | (.ok e, st') =>
          if truthy e then (.ok e, st')
          else arrLoop1 fuel env rest (idx + 1) velems st'
      | r => r
termination_by (fuel, pending.length + 1)

/-- The extra-positions loop of `inspectArray`: value positions beyond the
regular prefix go to the catch-other callback, or return `true`
immediately when none is configured (with a ghost `outcome` event). -/
def arrLoop2 (fuel : Nat) (env : CbEnv) (pendingVals : List (Option JsValue))
    (idx : Nat) (catchOther : Option JsValue) (st : St) :
    Except JsErr JsValue × St :=
  match pendingVals with
  | [] => (.ok (.bool false), st)
  | o :: rest =>
      match catchOther with
      | none =>
          (.ok (.bool true), { st with log := st.log ++ [.outcome st.inCb (.bool true)] })
      | some co =>
          match inspectKey fuel env co (o.getD .undefined) (.idx idx) st with
          | (.ok e, st') =>
              if truthy e then (.ok e, st')
              else arrLoop2 fuel env rest (idx + 1) catchOther st'
          | r => r
termination_by (fuel, pendingVals.length + 1)

/-- Runner `run(callback, value)`: pushes the value, invokes the callback with
the value and current key, coerces the result with `|| false`; an
exception resets the session (unless already finished) and re-raises; a
normal return on a finished session raises the cannot-proceed fault.
Emits the ghost `cbEntry` event (the spec-level ValueStack is the ancestor
funnel extended with the current value) and the ghost `outcome` event for
the coerced callback result. -/
def run (fuel : Nat) (env : CbEnv) (cb : Cb) (value : JsValue) (st : St) :
    Except JsErr JsValue × St :=
  match fuel with
  | 0 => (.error .fuelOut, st)
  | fuel + 1 =>
    let st1 : St := { st with
        values := st.values ++ [value], inCb := st.inCb + 1,
        log := st.log ++ [.cbEntry (st.funnel ++ [value]) st.path] }
    match runCb fuel env cb value (currentKey st) st1 with
    | (.error e, st2) =>
        if st2.finished then (.error e, st2) else (.error e, resetSt true st2)
    | (.ok r, st2) =>
        if st2.finished then (.error (.js cantProceedMsg), st2)
        else
          let e := jsOr r (.bool false)
          (.ok e, { st2 with
              values := st2.values.dropLast, inCb := st2.inCb - 1,
              log := st2.log ++ [.outcome st.inCb e] })
termination_by (fuel, 0)

/-- Interpreter of callback programs: the body of a schema callback run
with the current value and key. -/
def runCb (fuel : Nat) (env : CbEnv) (cb : Cb) (v : JsValue) (k : Option JsKey)
    (st : St) : Except JsErr JsValue × St :=
  match fuel with
  | 0 => (.error .fuelOut, st)
  | fuel + 1 =>
    match cb with
    | .ret f => (.ok (f v k), st)
    | .throwCb m => (.error (.js m), st)
    | .callValidator ev s => validatorFn fuel env ev s st
    | .bind c kont =>
        match runCb fuel env c v k st with
        | (.ok r, st') => runCb fuel env (kont r) v k st'
        | r => r
    | .tryCatch c h =>
        match runCb fuel env c v k st with
        | (.error (.js _), st') => runCb fuel env h v k st'
        | r => r
termination_by (fuel, 0)

end

/-- A complete top-level validation call `nv(value, schema)` on a fresh
instance. -/
def nvValidate (env : CbEnv) (fuel : Nat) (value schema : JsValue) :
    Except JsErr JsValue × St :=
  validatorFn fuel env (some value) schema initSt

/-- Accessor `errorPath()` (without a root name): throws before the session is
completed, otherwise returns the latched path (`null` as `none`). -/
def errorPathFn (st : St) : Except JsErr (Option (List JsKey)) × St :=
  if !st.finished then
    (.error (.js "errorPath() called before validation is completed"), st)
  else
    (.ok st.errorPath, st)

/-! ### Deferred (safe) navigation: the `wrapIfSafe` proxy getter -/

/-- The `/^\d+$/` test of the proxy getter. -/
def strAllDigits : JsValue → Bool
  | .str s => s ≠ "" && s.all Char.isDigit
  | _ => false

/-- Key coercion `ToPropertyKey`: the coercion JS applies to a value used as a property
key (canonical non-negative-integer strings and numbers become
integer-like keys). -/
def toPropKey : JsValue → JsKey
  | .str s =>
      match s.toNat? with
      | some n => if toString n = s then .idx n else .str s
      | none => .str s
  | .sym i => .sym i
  | .num (.fin n) => if 0 ≤ n then .idx n.toNat else .str (toString n)
  | .num .nan => .str "NaN"
  | .num .inf => .str "Infinity"
  | .num .ninf => .str "-Infinity"
  | .bool true => .str "true"
  | .bool false => .str "false"
  | .null => .str "null"
  | .undefined => .str "undefined"
  | .bigint i => .str (toString i)
  | _ => .str ""

/-- One property step on a speculative wrapper (the `get` trap of
`wrapIfSafe`, after `safeMap` resolution of nested wrappers used as keys):
the wrapper around `value` read at property `p` resolves to the member
when the underlying value supports that kind of access and owns the
member, and to `undefined` (an absent wrapper) otherwise — it never
throws. -/
def safeGet (value p : JsValue) : JsValue :=
  let valid :=
    (isObjectV value && (isSymV p || isStringV p || isNumberV p)
      || isArrayV value && (strAllDigits p || isNumberV p))
    && jsHasProp value (toPropKey p)
  if valid then jsGet value (toPropKey p) else .undefined

/-- Navigation `validator.up(levels)`: throws when the navigation would leave the
funnel of ancestor containers, speculative mode or not; otherwise returns
the anchor `funnel[funnel.length - 1 - levels]` (which deferred mode wraps
speculatively). -/
def upFn (levels : Nat) (st : St) : Except JsErr JsValue × St :=
  if st.funnel.length ≤ levels then
    resetAndThrow "up() call navigates above any object or array" st
  else
    (.ok (st.funnel.getD (st.funnel.length - 1 - levels) .undefined), st)

/-- Navigation `validator.root()`: throws outside any container, otherwise returns
the root anchor `funnel[0]`. -/
def rootFn (st : St) : Except JsErr JsValue × St :=
  if st.funnel.isEmpty then
    resetAndThrow "root() called outside of any object or array" st
  else
    (.ok (st.funnel.getD 0 .undefined), st)

/-! ### The matcher wrapper (`enhanceMatcher`) -/

/-- The result of running a deferred-navigation callback passed to a
matcher: a consumable speculative wrapper around `v` (the callback
performed navigation and returned its result), a plain value that is not a
wrapper, or an exception. -/
inductive SafeRes where
  | wrapped (v : JsValue)
  | plain (v : JsValue)
  | raise (msg : String)

/-- The one-argument case of a matcher produced by `enhanceMatcher`.  The
argument is the value `fv` together with — when it is a function — the
behaviour `body` of that function, which receives the `safeDepth` in force
while it runs.  When the stack is non-empty and `fv` is a function
distinct from the current value, the matcher enters deferred mode
(`safeDepth + 1`), invokes the function, exits deferred mode, and either
unwraps the consumable wrapper and applies the predicate, re-raises the
callback's exception, or resets and throws the protocol violation when the
result is not a consumable wrapper.  Otherwise the predicate is applied to
`fv` itself. -/
def enhancedMatcherFn (pred : JsValue → JsValue) (fv : JsValue)
    (body : Nat → SafeRes) (st : St) : Except JsErr JsValue × St :=
  if st.values.length > 0 && isFuncV fv && !jsStrictEq (currentValue st) fv then
    match body (st.safeDepth + 1) with
    | .raise m => (.error (.js m), st)
    | .wrapped v => (.ok (pred v), st)
    | .plain _ =>
        resetAndThrow "Callback did not perform traversal or did not return its result" st
  else
    (.ok (pred fv), st)

/-- The built-in `defined` matcher predicate. -/
def matcherDefined (v : JsValue) : JsValue := .bool (!isUndefV v)

/-- The built-in `get` (identity) matcher predicate. -/
def matcherGet (v : JsValue) : JsValue := v

/-! ### Specification-side definitions -/

/-- The comparison trace of a log: one `(isErr, keyStack)` entry per
`inspect` return, in order. -/
def cmpsOf (l : List Ev) : List (Bool × List JsKey) :=
  l.filterMap fun ev =>
    match ev with
    | .cmp b p => some (b, p)
    | _ => none

/-- The check outcomes recorded at callback-nesting depth `c`: the coerced
results of the callbacks invoked by one validation call's own traversal
together with its shape/literal mismatch sentinels, in traversal order. -/
def outsAt (c : Nat) (l : List Ev) : List JsValue :=
  l.filterMap fun ev =>
    match ev with
    | .outcome d v => if d = c then some v else none
    | _ => none

/-- All outcome events of a log fragment live at depth `c` or deeper. -/
def outsAbove (c : Nat) (l : List Ev) : Prop :=
  ∀ d v, Ev.outcome d v ∈ l → c ≤ d

/-- Every callback-entry snapshot of a log fragment satisfies the
ValueStack/KeyStack length invariant. -/
def cbEntriesBalanced (l : List Ev) : Prop :=
  ∀ vs ks, Ev.cbEntry vs ks ∈ l → vs.length = ks.length + 1

/-- All listed outcomes are falsy. -/
def falsyAll (os : List JsValue) : Prop :=
  ∀ v ∈ os, truthy v = false

/-- A result `e` is explained by an outcome list `os` exactly as the
specification describes the return value: either nothing was truthy and
the result is the not-an-error sentinel `false`, or the result is the
first (and only) truthy outcome. -/
def firstErrorChar (os : List JsValue) (e : JsValue) : Prop :=
  (falsyAll os ∧ e = .bool false)
    ∨ (∃ os₀, os = os₀ ++ [e] ∧ falsyAll os₀ ∧ truthy e = true)

/-- One step of the error-path latch automaton, as the specification
words it: a successful comparison clears the latched path, a failing
comparison latches the current key stack only if none is latched. -/
def latchStep (acc : Option (List JsKey)) (c : Bool × List JsKey) :
    Option (List JsKey) :=
  if c.1 then
    match acc with
    | none => some c.2
    | some p => some p
  else none

/-- Declarative reading of the latch automaton: the key stack of the first
failing comparison that no later successful comparison superseded (the
first error after the last success of the trace). -/
def latchSummary (tr : List (Bool × List JsKey)) : Option (List JsKey) :=
  ((tr.reverse.takeWhile (fun c => c.1)).reverse).head?.map (fun c => c.2)

/-- A step of the object traversal plan stated by the specification:
either recurse at `key` comparing sub-schema `sch` against member `sub`,
or stop the traversal returning the generic error `true`. -/
inductive PlanStep where
  | check (key : JsKey) (sch : JsValue) (sub : JsValue)
  | stopTrue
deriving Repr

/-- Sequential processing of a traversal plan, short-circuiting on the
first truthy result — the specification-side rendering of the object
comparator's two passes. -/
def processPlan (fuel : Nat) (env : CbEnv) (plan : List PlanStep) (st : St) :
    Except JsErr JsValue × St :=
  match plan with
  | [] => (.ok (.bool false), st)
  | .check key sch sub :: rest =>
      match inspectKey fuel env sch sub key st with
      | (.ok e, st') =>
          if truthy e then (.ok e, st') else processPlan fuel env rest st'
      | r => r
  | .stopTrue :: _ =>
      (.ok (.bool true), { st with log := st.log ++ [.outcome st.inCb (.bool true)] })

/-- The total visit order claimed for an object comparison: first the
schema-declared keys (reserved marker keys are configuration, not
declarations) in enumeration order — integer-like keys ascending, then
textual keys in declaration order, then symbol keys in declaration order —
each checked against the value's corresponding member (`undefined` when
absent); then the value's own members not declared in the schema, in the
value's enumeration order, each routed to the catch-remaining callback
when one is configured and otherwise stopping with the generic `true`. -/
def objectVisitPlan (entries ventries : List (JsKey × JsValue))
    (catchOther : JsValue) : List PlanStep :=
  ((allEntries entries).filter (fun p => !reservedSymKey p.1)).map
      (fun p => .check p.1 p.2 (jsGet (.obj ventries) p.1))
    ++ ((allEntries ventries).filter (fun p => !jsHasProp (.obj entries) p.1)).map
      (fun p => if isUndefV catchOther then .stopTrue else .check p.1 catchOther p.2)

/-- An array-schema slot after the end marker holding a function
(candidate catch-other callback). -/
def isFuncSlot : Option JsValue → Bool
  | some v => isFuncV v
  | none => false

/-- An array-schema slot after the end marker holding a truthy
non-function (candidate shape-error override). -/
def isTruthyNonFuncSlot : Option JsValue → Bool
  | some v => !isFuncV v && truthy v
  | none => false

/-- The malformations of an array schema enumerated by the claim: more
than two slots after the end-of-regular marker, a second end marker (a
hole or the end token) after it, more than one catch-other callback, more
than one truthy override, or a falsy override. -/
def malformedArraySchema (elems : List (Option JsValue)) : Prop :=
  let tail := elems.drop (endIndexOf elems + 1)
  2 < tail.length
    ∨ (∃ o ∈ tail, isEndStop o = true)
    ∨ 2 ≤ tail.countP isFuncSlot
    ∨ 2 ≤ tail.countP isTruthyNonFuncSlot
    ∨ (∃ v, some v ∈ tail ∧ isFuncV v = false ∧ truthy v = false)

/-! ### Session-state invariants and log lemmas -/

/-- The session state produced by `reset`: everything cleared. -/
def clearedSt (st : St) : Prop :=
  st.values = [] ∧ st.funnel = [] ∧ st.path = [] ∧ st.errorPath = none ∧
    st.validatorDepth = 0

/-- Invariant of a state in the middle of a traversal, at a container
boundary: inside at least one validator frame, session alive, funnel and
key stack in step. -/
def midPre (st : St) : Prop :=
  1 ≤ st.validatorDepth ∧ st.finished = false ∧ st.funnel.length = st.path.length

/-- Invariant of a state inside a container comparator, between the funnel
push and the member key push. -/
def deepPre (st : St) : Prop :=
  1 ≤ st.validatorDepth ∧ st.finished = false ∧
    st.funnel.length = st.path.length + 1

/-- Invariant of a state in which a callback program may run: either the
session is alive inside a validator frame with funnel and key stack in
step, or a nested exception already finished the session, which leaves it
cleared. -/
def cbPre (st : St) : Prop :=
  (st.finished = false → 1 ≤ st.validatorDepth ∧ st.funnel.length = st.path.length) ∧
    (st.finished = true → clearedSt st)

/-- Invariant of a state in which the validator entry point may be
invoked: a finished session is cleared, an alive one keeps funnel and key
stack in step and is empty when outside all frames. -/
def vPre (st : St) : Prop :=
  (st.finished = true → clearedSt st) ∧
    (st.finished = false → st.funnel.length = st.path.length ∧
      (st.validatorDepth = 0 → st.values = [] ∧ st.funnel = [] ∧ st.path = []))

/-! ### Result specifications of the interpreter functions -/

/-- A normal return restores the traversal frame: the value stack, funnel,
key stack, validator depth and callback nesting are as at entry, and the
session is still alive. -/
def okFrame (st st' : St) : Prop :=
  st'.values = st.values ∧ st'.funnel = st.funnel ∧ st'.path = st.path ∧
    st'.validatorDepth = st.validatorDepth ∧ st'.inCb = st.inCb ∧
    st'.finished = false

/-- The ghost log grew by `Δ`, whose callback-entry snapshots are balanced
and whose outcome events sit at the entry nesting depth or deeper. -/
def ghostOf (st st' : St) (Δ : List Ev) : Prop :=
  st'.log = st.log ++ Δ ∧ cbEntriesBalanced Δ ∧ outsAbove st.inCb Δ ∧
    st.inCb ≤ st'.inCb

/-- Specification of one traversal step (`inspect`, `doInspect`,
`inspectKey`, the container comparators and their loops, and `run`): the
ghost log grows as described; a thrown `Error` leaves the session finished
and cleared; a normal return restores the frame, updates the error-path
latch by folding the automaton over the comparison events of the step, and
returns exactly the first truthy check outcome of the step (or `false`
when there is none). -/
def StepSpec (st : St) (r : Except JsErr JsValue × St) : Prop :=
  ∃ Δ, ghostOf st r.2 Δ ∧
    (∀ m, r.1 = .error (.js m) → r.2.finished = true ∧ clearedSt r.2) ∧
    (∀ e, r.1 = .ok e → okFrame st r.2 ∧
      r.2.errorPath = List.foldl latchStep st.errorPath (cmpsOf Δ) ∧
      firstErrorChar (outsAt st.inCb Δ) e)

/-- The state dichotomy after a callback program ran (normally or raising
an `Error`): either a nested exception finished and cleared the session,
or the session is alive with the frame restored and the error-path latch
folded over the step's comparison events. -/
def cbPost (st st' : St) (Δ : List Ev) : Prop :=
  (st'.finished = true → clearedSt st') ∧
    (st'.finished = false →
      st'.values = st.values ∧ st'.funnel = st.funnel ∧ st'.path = st.path ∧
      st'.validatorDepth = st.validatorDepth ∧ st'.inCb = st.inCb ∧
      st'.errorPath = List.foldl latchStep st.errorPath (cmpsOf Δ))

/-- Specification of a callback program's execution: like `StepSpec`, but
the program may have swallowed a nested exception, in which case the
session is finished and cleared; `finished` never reverts. -/
def CbSpec (st : St) (r : Except JsErr JsValue × St) : Prop :=
  ∃ Δ, ghostOf st r.2 Δ ∧
    (st.finished = true → r.2.finished = true) ∧
    (∀ m, r.1 = .error (.js m) → cbPost st r.2 Δ) ∧
    (∀ e, r.1 = .ok e → cbPost st r.2 Δ)

/-- Specification of the validator entry point: as `StepSpec`, except that
a completed top-level call additionally performs the `basicReset`, so the
session ends finished exactly when the call was top-level; a falsy result
leaves no latched error path. -/
def VSpec (st : St) (r : Except JsErr JsValue × St) : Prop :=
  ∃ Δ, ghostOf st r.2 Δ ∧
    (st.finished = true → r.2.finished = true) ∧
    (∀ m, r.1 = .error (.js m) → r.2.finished = true ∧ clearedSt r.2) ∧
    (∀ e, r.1 = .ok e →
      st.finished = false ∧
      r.2.values = st.values ∧ r.2.funnel = st.funnel ∧ r.2.path = st.path ∧
      r.2.validatorDepth = st.validatorDepth ∧ r.2.inCb = st.inCb ∧
      r.2.errorPath = List.foldl latchStep st.errorPath (cmpsOf Δ) ∧
      firstErrorChar (outsAt st.inCb Δ) e ∧
      (truthy e = false → r.2.errorPath = none) ∧
      r.2.finished = (st.validatorDepth == 0))

/-- The comparator `inspect` clears the latched path whenever its result is falsy. -/
def okClearsOnFalsy (r : Except JsErr JsValue × St) : Prop :=
  ∀ e, r.1 = .ok e → truthy e = false → r.2.errorPath = none

/-- The conjunction of all interpreter-function specifications at a given
fuel. -/
def EngineInv (env : CbEnv) (fuel : Nat) : Prop :=
  (∀ ev s st, vPre st → VSpec st (validatorFn fuel env ev s st)) ∧
  (∀ s v st, midPre st → StepSpec st (inspect fuel env s v st) ∧
    okClearsOnFalsy (inspect fuel env s v st)) ∧
  (∀ s v st, midPre st → StepSpec st (doInspect fuel env s v st)) ∧
  (∀ s v k st, deepPre st → StepSpec st (inspectKey fuel env s v k st)) ∧
  (∀ entries v st, deepPre st → StepSpec st (inspectObject fuel env entries v st)) ∧
  (∀ elems v st, deepPre st → StepSpec st (inspectArray fuel env elems v st)) ∧
  (∀ cb v st, midPre st → StepSpec st (run fuel env cb v st)) ∧
  (∀ cb v k st, cbPre st → CbSpec st (runCb fuel env cb v k st))

/-! ### Concrete schemas, callbacks and runs used as examples -/

/-- A callback environment whose callbacks all report no error. -/
def env0 : CbEnv := fun _ => .ret (fun _ _ => .bool false)

/-- A callback environment whose callbacks all throw the user exception
`custom`. -/
def envThrow : CbEnv := fun _ => .throwCb "custom"

/-- A callback that swallows the exception of a nested validation call
whose callback throws, and then returns normally. -/
def envSwallow : CbEnv := fun n =>
  match n with
  | 0 => .tryCatch (.callValidator (some (.bool true)) (.func 1))
      (.ret (fun _ _ => .bool false))
  | _ => .throwCb "boom"

/-- The final session state of validating `true` against a callback schema
whose callback returns `false`. -/
def stOk0 : St :=
  { values := [], funnel := [], path := [], errorPath := none,
    validatorDepth := 0, safeDepth := 0, started := false, finished := true,
    inCb := 0, log := [.cbEntry [.bool true] [], .outcome 0 (.bool false),
      .cmp false []] }

/-- The final session state after the callback threw `custom`. -/
def stThrow : St :=
  { values := [], funnel := [], path := [], errorPath := none,
    validatorDepth := 0, safeDepth := 0, started := false, finished := true,
    inCb := 1, log := [.cbEntry [.bool true] []] }

/-- The value `{ type: 'dragon', position: [1, 'x'] }` of the
specification's example. -/
def dragonValue : JsValue :=
  .obj [(.str "type", .str "dragon"),
        (.str "position", .arr [some (.num (.fin 1)), some (.str "x")])]

/-- The schema `{ type: <f0>, position: [<f1>, <f2>] }` of the
specification's example. -/
def dragonSchema : JsValue :=
  .obj [(.str "type", .func 0),
        (.str "position", .arr [some (.func 1), some (.func 2)])]

/-- The callbacks of the specification's example: `v => v !== 'dragon'`
for the `type` member and `() => false` for the array positions. -/
def dragonEnv : CbEnv := fun n =>
  match n with
  | 0 => .ret (fun v _ => .bool (!jsStrictEq v (.str "dragon")))
  | _ => .ret (fun _ _ => .bool false)

/-- An object schema with integer-like, textual and symbol keys declared
out of enumeration order. -/
def entriesW : List (JsKey × JsValue) :=
  [(.str "b", .func 0), (.idx 2, .func 0), (.idx 1, .func 0), (.sym 5, .func 0)]

/-- An object value with members partly declared in `entriesW` and partly
undeclared. -/
def ventriesW : List (JsKey × JsValue) :=
  [(.str "c", .bool true), (.idx 0, .num (.fin 1)), (.str "b", .str "x")]

/-- A session state in the middle of a traversal (one value on the stack,
no container entered yet by the current frame). -/
def stC6 : St :=
  { values := [.bool true], funnel := [], path := [], errorPath := none,
    validatorDepth := 1, safeDepth := 0, started := true, finished := false,
    inCb := 0, log := [] }

/-- A malformed array schema: three slots after the end-of-regular
marker. -/
def elemsBad : List (Option JsValue) :=
  [some (.sym endSymId), some (.bool true), some (.func 0), some (.str "x")]

/-! ### Session-state lemmas -/

theorem cbPre_of_vParts (st : St) (h : vPre st)
    (hd : st.finished = false → 1 ≤ st.validatorDepth) : cbPre st := by
  refine ⟨fun hf => ⟨hd hf, (h.2 hf).1⟩, h.1⟩

theorem vPre_of_cbPre (st : St) (h : cbPre st) : vPre st := by
  refine ⟨h.2, fun hf => ⟨(h.1 hf).2, fun hz => absurd hz (by have := (h.1 hf).1; omega)⟩⟩

theorem clearedSt_resetSt (final : Bool) (st : St) : clearedSt (resetSt final st) := by
  simp [clearedSt, resetSt]

theorem cmpsOf_append (a b : List Ev) : cmpsOf (a ++ b) = cmpsOf a ++ cmpsOf b := by
  simp [cmpsOf, List.filterMap_append]

theorem cmpsOf_nil : cmpsOf [] = [] := rfl

theorem outsAt_append (c : Nat) (a b : List Ev) :
    outsAt c (a ++ b) = outsAt c a ++ outsAt c b := by
  simp [outsAt, List.filterMap_append]

theorem outsAt_nil (c : Nat) : outsAt c [] = [] := rfl

theorem outsAbove_nil (c : Nat) : outsAbove c [] := by
  intro d v h; cases h

theorem outsAbove_append (c : Nat) {a b : List Ev} (ha : outsAbove c a)
    (hb : outsAbove c b) : outsAbove c (a ++ b) := by
  intro d v h
  rcases List.mem_append.1 h with h' | h'
  · exact ha d v h'
  · exact hb d v h'

theorem outsAbove_mono {c c' : Nat} (h : c ≤ c') {l : List Ev}
    (hl : outsAbove c' l) : outsAbove c l := by
  intro d v hm; exact le_trans h (hl d v hm)

theorem outsAt_eq_nil_of_above {c : Nat} {l : List Ev}
    (h : outsAbove (c + 1) l) : outsAt c l = [] := by
  simp only [outsAt, List.filterMap_eq_nil_iff]
  intro ev hev
  cases ev with
  | outcome d v =>
      have := h d v hev
      simp only [ite_eq_right_iff]
      intro hd; omega
  | cbEntry vs ks => rfl
  | cmp b p => rfl

theorem cbEntriesBalanced_nil : cbEntriesBalanced [] := by
  intro vs ks h; cases h

theorem cbEntriesBalanced_append {a b : List Ev} (ha : cbEntriesBalanced a)
    (hb : cbEntriesBalanced b) : cbEntriesBalanced (a ++ b) := by
  intro vs ks h
  rcases List.mem_append.1 h with h' | h'
  · exact ha vs ks h'
  · exact hb vs ks h'

theorem falsyAll_nil : falsyAll [] := by
  intro v h; cases h

theorem falsyAll_append {a b : List JsValue} (ha : falsyAll a) (hb : falsyAll b) :
    falsyAll (a ++ b) := by
  intro v h
  rcases List.mem_append.1 h with h' | h'
  · exact ha v h'
  · exact hb v h'

theorem firstErrorChar_nil_false : firstErrorChar [] (.bool false) :=
  Or.inl ⟨falsyAll_nil, rfl⟩

theorem firstErrorChar_single (e : JsValue) (he : e = .bool false ∨ truthy e = true) :
    firstErrorChar [e] e := by
  rcases he with he | he
  · exact Or.inl ⟨by intro v hv; simp at hv; subst hv; rw [he]; rfl, he⟩
  · exact Or.inr ⟨[], by simp, falsyAll_nil, he⟩

theorem firstErrorChar_append_left {os₁ os₂ : List JsValue} {e : JsValue}
    (h₁ : falsyAll os₁) (h₂ : firstErrorChar os₂ e) :
    firstErrorChar (os₁ ++ os₂) e := by
  rcases h₂ with ⟨hf, he⟩ | ⟨os₀, heq, hf, ht⟩
  · exact Or.inl ⟨falsyAll_append h₁ hf, he⟩
  · exact Or.inr ⟨os₁ ++ os₀, by rw [heq, List.append_assoc], falsyAll_append h₁ hf, ht⟩

theorem firstErrorChar_shape {os : List JsValue} {e : JsValue}
    (h : firstErrorChar os e) : e = .bool false ∨ truthy e = true := by
  rcases h with ⟨_, he⟩ | ⟨_, _, _, ht⟩
  · exact Or.inl he
  · exact Or.inr ht

theorem firstErrorChar_falsy {os : List JsValue} {e : JsValue}
    (h : firstErrorChar os e) (hf : truthy e = false) :
    falsyAll os ∧ e = .bool false := by
  rcases h with ⟨hall, he⟩ | ⟨_, _, _, ht⟩
  · exact ⟨hall, he⟩
  · rw [ht] at hf; cases hf

theorem dropLast_append_singleton {α : Type} (l : List α) (a : α) :
    (l ++ [a]).dropLast = l := by
  simp

theorem foldl_latchStep_append (acc : Option (List JsKey))
    (a b : List (Bool × List JsKey)) :
    List.foldl latchStep acc (a ++ b) = List.foldl latchStep (List.foldl latchStep acc a) b := by
  rw [List.foldl_append]

theorem latchSummary_eq_foldl (tr : List (Bool × List JsKey)) :
    List.foldl latchStep none tr = latchSummary tr := by
  induction tr using List.reverseRecOn with
  | nil => rfl
  | append_singleton tr c ih =>
      rcases c with ⟨b, p⟩
      rw [List.foldl_append]
      simp only [List.foldl_cons, List.foldl_nil]
      unfold latchSummary
      rw [List.reverse_append]
      simp only [List.reverse_cons, List.reverse_nil, List.nil_append, List.cons_append]
      rw [List.takeWhile_cons]
      cases b with
      | false => simp [latchStep]
      | true =>
          simp only [decide_True, if_true]
          rw [ih]
          unfold latchSummary
          cases h : (tr.reverse.takeWhile (fun c => c.1)) with
          | nil => simp [latchStep]
          | cons hd tl =>
              simp only [latchStep, List.reverse_cons, List.head?_append,
                List.head?_cons]
              cases h2 : tl.getLast? <;> simp [h2]

theorem stepSpec_fuelOut (st : St) : StepSpec st (.error .fuelOut, st) := by
  refine ⟨[], ⟨by simp, cbEntriesBalanced_nil, outsAbove_nil _, le_refl _⟩, ?_, ?_⟩
  · intro m h; cases h
  · intro e h; cases h

theorem cbSpec_fuelOut (st : St) : CbSpec st (.error .fuelOut, st) := by
  refine ⟨[], ⟨by simp, cbEntriesBalanced_nil, outsAbove_nil _, le_refl _⟩, fun h => h, ?_, ?_⟩
  · intro m h; cases h
  · intro e h; cases h

theorem vSpec_fuelOut (st : St) : VSpec st (.error .fuelOut, st) := by
  refine ⟨[], ⟨by simp, cbEntriesBalanced_nil, outsAbove_nil _, le_refl _⟩, fun h => h, ?_, ?_⟩
  · intro m h; cases h
  · intro e h; cases h

theorem stepSpec_pure_false (st : St) (h : st.finished = false) :
    StepSpec st (.ok (.bool false), st) := by
  refine ⟨[], ⟨by simp, cbEntriesBalanced_nil, outsAbove_nil _, le_refl _⟩, ?_, ?_⟩
  · intro m hm; cases hm
  · intro e he
    cases he
    exact ⟨⟨rfl, rfl, rfl, rfl, rfl, h⟩, rfl, firstErrorChar_nil_false⟩

theorem stepSpec_emit_outcome (st : St) (e : JsValue) (h : st.finished = false)
    (he : truthy e = true) :
    StepSpec st (.ok e, { st with log := st.log ++ [.outcome st.inCb e] }) := by
  refine ⟨[.outcome st.inCb e], ⟨by simp, ?_, ?_, le_refl _⟩, ?_, ?_⟩
  · intro vs ks hm; simp at hm
  · intro d v hm; simp at hm; omega
  · intro m hm; cases hm
  · intro e' he'
    cases he'
    refine ⟨⟨rfl, rfl, rfl, rfl, rfl, h⟩, by simp [cmpsOf], ?_⟩
    have : outsAt st.inCb [Ev.outcome st.inCb e] = [e] := by simp [outsAt]
    rw [this]
    exact firstErrorChar_single e (Or.inr he)

theorem stepSpec_emit_check (st : St) (e : JsValue) (h : st.finished = false)
    (he : e = .bool false ∨ truthy e = true) :
    StepSpec st (.ok e, { st with log := st.log ++ [.outcome st.inCb e] }) := by
  refine ⟨[.outcome st.inCb e], ⟨by simp, ?_, ?_, le_refl _⟩, ?_, ?_⟩
  · intro vs ks hm; simp at hm
  · intro d v hm; simp at hm; omega
  · intro m hm; cases hm
  · intro e' he'
    cases he'
    refine ⟨⟨rfl, rfl, rfl, rfl, rfl, h⟩, by simp [cmpsOf], ?_⟩
    have : outsAt st.inCb [Ev.outcome st.inCb e] = [e] := by simp [outsAt]
    rw [this]
    exact firstErrorChar_single e he

/-- Sequencing two traversal steps when the first returned the falsy
sentinel. -/
theorem stepSpec_seq {st st1 : St} {e1 : JsValue} {r : Except JsErr JsValue × St}
    (h1 : StepSpec st (.ok e1, st1)) (hf : truthy e1 = false)
    (h2 : StepSpec st1 r) : StepSpec st r := by
  obtain ⟨Δ1, ⟨hlog1, hbal1, habove1, hle1⟩, _, hok1⟩ := h1
  obtain ⟨hframe1, hpath1, hchar1⟩ := hok1 e1 rfl
  obtain ⟨Δ2, ⟨hlog2, hbal2, habove2, hle2⟩, herr2, hok2⟩ := h2
  have hinCb1 : st1.inCb = st.inCb := hframe1.2.2.2.2.1
  refine ⟨Δ1 ++ Δ2, ⟨?_, cbEntriesBalanced_append hbal1 hbal2, ?_,
    le_trans hle1 hle2⟩, herr2, ?_⟩
  · rw [hlog2, hlog1, List.append_assoc]
  · exact outsAbove_append _ habove1 (by rw [← hinCb1]; exact habove2)
  · intro e he
    obtain ⟨hframe2, hpath2, hchar2⟩ := hok2 e he
    obtain ⟨hv1, hfu1, hp1, hd1, hc1, hfin1⟩ := hframe1
    obtain ⟨hv2, hfu2, hp2, hd2, hc2, hfin2⟩ := hframe2
    refine ⟨⟨hv2.trans hv1, hfu2.trans hfu1, hp2.trans hp1, hd2.trans hd1,
      hc2.trans hc1, hfin2⟩, ?_, ?_⟩
    · rw [cmpsOf_append, foldl_latchStep_append, ← hpath1, hpath2]
    · rw [outsAt_append]
      have hfalsy1 : falsyAll (outsAt st.inCb Δ1) :=
        (firstErrorChar_falsy hchar1 hf).1
      rw [hinCb1] at hchar2
      exact firstErrorChar_append_left hfalsy1 hchar2

theorem validateObjectSchema_ok_state {entries : List (JsKey × JsValue)} {st : St}
    {co se : JsValue} {st' : St}
    (h : validateObjectSchema entries st = (.ok (co, se), st')) : st' = st := by
  simp only [validateObjectSchema] at h
  repeat' split at h
  all_goals simp_all [resetAndThrow]

theorem validateObjectSchema_err_state {entries : List (JsKey × JsValue)} {st : St}
    {e : JsErr} {st' : St}
    (h : validateObjectSchema entries st = (.error e, st')) :
    st' = resetSt true st ∧ ∃ m, e = .js m := by
  simp only [validateObjectSchema] at h
  repeat' split at h
  all_goals simp only [resetAndThrow, Prod.mk.injEq] at h
  all_goals obtain ⟨he, hst⟩ := h
  all_goals first
    | (injection he with he2; subst he2; exact ⟨hst.symm, _, rfl⟩)
    | injection he

theorem arrTailScan_ok_state {tail : List (Option JsValue)} {f t : Option JsValue}
    {st : St} {r : Option JsValue × Option JsValue} {st' : St}
    (h : arrTailScan tail f t st = (.ok r, st')) : st' = st := by
  induction tail generalizing f t with
  | nil =>
      simp only [arrTailScan, Prod.mk.injEq] at h
      exact h.2.symm
  | cons o rest ih =>
      simp only [arrTailScan] at h
      repeat' split at h
      all_goals first
        | exact ih h
        | (simp only [resetAndThrow, Prod.mk.injEq] at h; injection h.1)

theorem arrTailScan_err_state {tail : List (Option JsValue)} {f t : Option JsValue}
    {st : St} {e : JsErr} {st' : St}
    (h : arrTailScan tail f t st = (.error e, st')) :
    st' = resetSt true st ∧ ∃ m, e = .js m := by
  induction tail generalizing f t with
  | nil =>
      simp only [arrTailScan, Prod.mk.injEq] at h
      injection h.1
  | cons o rest ih =>
      simp only [arrTailScan] at h
      repeat' split at h
      all_goals first
        | exact ih h
        | (simp only [resetAndThrow, Prod.mk.injEq] at h;
           obtain ⟨he, hst⟩ := h; injection he with he2; subst he2;
           exact ⟨hst.symm, _, rfl⟩)

theorem validateArraySchema_ok_state {elems : List (Option JsValue)} {st : St}
    {r : Nat × Option JsValue × Option JsValue} {st' : St}
    (h : validateArraySchema elems st = (.ok r, st')) : st' = st := by
  simp only [validateArraySchema] at h
  repeat' split at h
  all_goals first
    | (rename_i heq; rw [arrTailScan_ok_state heq] at h; simp only [Prod.mk.injEq] at h;
       exact h.2.symm)
    | (simp only [resetAndThrow, Prod.mk.injEq] at h; injection h.1)

theorem validateArraySchema_err_state {elems : List (Option JsValue)} {st : St}
    {e : JsErr} {st' : St}
    (h : validateArraySchema elems st = (.error e, st')) :
    st' = resetSt true st ∧ ∃ m, e = .js m := by
  simp only [validateArraySchema] at h
  repeat' split at h
  all_goals first
    | (simp only [resetAndThrow, Prod.mk.injEq] at h;
       obtain ⟨he, hst⟩ := h; injection he with he2; subst he2;
       exact ⟨hst.symm, _, rfl⟩)
    | (rename_i heq; rw [arrTailScan_ok_state heq] at h; simp only [Prod.mk.injEq] at h;
       injection h.1)
    | (rename_i heq; obtain ⟨h1, h2⟩ := arrTailScan_err_state heq;
       rw [h1] at h; simp only [Prod.mk.injEq] at h;
       obtain ⟨he, hst⟩ := h; injection he with he2;
       rcases h2 with ⟨m, hm⟩;
       exact ⟨hst.symm, m, he2.symm.trans hm⟩)

theorem stepSpec_ok_elim {st st1 : St} {e1 : JsValue}
    (h : StepSpec st (.ok e1, st1)) :
    ∃ Δ, st1.log = st.log ++ Δ ∧ cbEntriesBalanced Δ ∧ outsAbove st.inCb Δ ∧
      st1.values = st.values ∧ st1.funnel = st.funnel ∧ st1.path = st.path ∧
      st1.validatorDepth = st.validatorDepth ∧ st1.inCb = st.inCb ∧
      st1.finished = false ∧
      st1.errorPath = List.foldl latchStep st.errorPath (cmpsOf Δ) ∧
      firstErrorChar (outsAt st.inCb Δ) e1 := by
  obtain ⟨Δ, ⟨hlog, hbal, habove, hle⟩, _, hok⟩ := h
  obtain ⟨⟨hv, hfu, hp, hd, hc, hfin⟩, hlatch, hchar⟩ := hok e1 rfl
  exact ⟨Δ, hlog, hbal, habove, hv, hfu, hp, hd, hc, hfin, hlatch, hchar⟩

theorem stepSpec_err_elim {st st1 : St} {e : JsErr}
    (h : StepSpec st (.error e, st1)) :
    ∃ Δ, st1.log = st.log ++ Δ ∧ cbEntriesBalanced Δ ∧ outsAbove st.inCb Δ ∧
      st.inCb ≤ st1.inCb ∧
      (∀ m, e = .js m → st1.finished = true ∧ clearedSt st1) := by
  obtain ⟨Δ, ⟨hlog, hbal, habove, hle⟩, herr, _⟩ := h
  exact ⟨Δ, hlog, hbal, habove, hle, fun m hm => herr m (by rw [hm])⟩

theorem stepSpec_ok_intro {st st1 : St} {e1 : JsValue} (Δ : List Ev)
    (hlog : st1.log = st.log ++ Δ) (hbal : cbEntriesBalanced Δ)
    (habove : outsAbove st.inCb Δ)
    (hv : st1.values = st.values) (hfu : st1.funnel = st.funnel)
    (hp : st1.path = st.path) (hd : st1.validatorDepth = st.validatorDepth)
    (hc : st1.inCb = st.inCb) (hfin : st1.finished = false)
    (hlatch : st1.errorPath = List.foldl latchStep st.errorPath (cmpsOf Δ))
    (hchar : firstErrorChar (outsAt st.inCb Δ) e1) :
    StepSpec st (.ok e1, st1) := by
  refine ⟨Δ, ⟨hlog, hbal, habove, le_of_eq hc.symm⟩, ?_, ?_⟩
  · intro m hm; cases hm
  · intro e he
    cases he
    exact ⟨⟨hv, hfu, hp, hd, hc, hfin⟩, hlatch, hchar⟩

theorem stepSpec_err_intro {st st1 : St} {e : JsErr} (Δ : List Ev)
    (hlog : st1.log = st.log ++ Δ) (hbal : cbEntriesBalanced Δ)
    (habove : outsAbove st.inCb Δ)
    (hle : st.inCb ≤ st1.inCb)
    (herr : ∀ m, e = .js m → st1.finished = true ∧ clearedSt st1) :
    StepSpec st (.error e, st1) := by
  refine ⟨Δ, ⟨hlog, hbal, habove, hle⟩, ?_, ?_⟩
  · intro m hm
    exact herr m (by cases hm; rfl)
  · intro e' he; cases he

theorem inspect_succ_spec (fuel : Nat) (env : CbEnv)
    (hdo : ∀ s v st, midPre st → StepSpec st (doInspect fuel env s v st)) :
    ∀ s v st, midPre st → StepSpec st (inspect (fuel + 1) env s v st) ∧
      okClearsOnFalsy (inspect (fuel + 1) env s v st) := by
  intro s v st hpre
  have hD := hdo s v st hpre
  rw [inspect]
  rcases hdoeq : doInspect fuel env s v st with ⟨r1, st1⟩
  rw [hdoeq] at hD
  cases r1 with
  | error e1 =>
      refine ⟨hD, ?_⟩
      intro e he
      cases he
  | ok e1 =>
      obtain ⟨Δ, hlog, hbal, habove, hv, hfu, hp, hd, hc, hfin, hlatch, hchar⟩ :=
        stepSpec_ok_elim hD
      constructor
      · refine stepSpec_ok_intro (Δ ++ [.cmp (truthy e1) st1.path]) ?_ ?_ ?_ hv hfu hp hd hc hfin ?_ ?_
        · simp only [hlog, List.append_assoc]
        · exact cbEntriesBalanced_append hbal (by intro vs ks h; simp at h)
        · exact outsAbove_append _ habove (by intro d v' h; simp at h)
        · rw [cmpsOf_append, foldl_latchStep_append, ← hlatch]
          simp [cmpsOf, latchStep, hp]
        · rw [outsAt_append]
          have h0 : outsAt st.inCb [Ev.cmp (truthy e1) st1.path] = [] := by
            simp [outsAt]
          rw [h0, List.append_nil]
          exact hchar
      · intro e he hf
        simp only at he
        cases he
        simp [hf]

theorem stepSpec_deeper_err {st st2 : St} {v : JsValue} {e : JsErr}
    (h : StepSpec { st with funnel := st.funnel ++ [v] } (.error e, st2)) :
    StepSpec st (.error e, st2) := by
  obtain ⟨Δ, hlog, hbal, habove, hle, herr⟩ := stepSpec_err_elim h
  exact stepSpec_err_intro Δ hlog hbal habove hle herr

theorem stepSpec_deeper_ok {st st2 : St} {v e : JsValue}
    (h : StepSpec { st with funnel := st.funnel ++ [v] } (.ok e, st2)) :
    StepSpec st (.ok e, { st2 with funnel := st2.funnel.dropLast }) := by
  obtain ⟨Δ, hlog, hbal, habove, hv, hfu, hp, hd, hc, hfin, hlatch, hchar⟩ :=
    stepSpec_ok_elim h
  refine stepSpec_ok_intro Δ hlog hbal habove hv ?_ hp hd hc hfin hlatch hchar
  rw [hfu]
  simp

theorem doInspect_succ_spec (fuel : Nat) (env : CbEnv)
    (hrun : ∀ cb v st, midPre st → StepSpec st (run fuel env cb v st))
    (hobj : ∀ entries v st, deepPre st → StepSpec st (inspectObject fuel env entries v st))
    (harr : ∀ elems v st, deepPre st → StepSpec st (inspectArray fuel env elems v st)) :
    ∀ s v st, midPre st → StepSpec st (doInspect (fuel + 1) env s v st) := by
  intro s v st hpre
  have hdeep : deepPre { st with funnel := st.funnel ++ [v] } := by
    obtain ⟨h1, h2, h3⟩ := hpre
    exact ⟨h1, h2, by simpa using h3⟩
  cases s with
  | func id => rw [doInspect]; exact hrun (env id) v st hpre
  | obj entries =>
      rw [doInspect]
      have hO := hobj entries v _ hdeep
      rcases hoe : inspectObject fuel env entries v { st with funnel := st.funnel ++ [v] } with
        ⟨r2, st2⟩
      rw [hoe] at hO
      cases r2 with
      | error e2 => exact stepSpec_deeper_err hO
      | ok e2 => exact stepSpec_deeper_ok hO
  | arr elems =>
      rw [doInspect]
      have hA := harr elems v _ hdeep
      rcases hae : inspectArray fuel env elems v { st with funnel := st.funnel ++ [v] } with
        ⟨r2, st2⟩
      rw [hae] at hA
      cases r2 with
      | error e2 => exact stepSpec_deeper_err hA
      | ok e2 => exact stepSpec_deeper_ok hA
  | undefined =>
      rw [doInspect]
      case x => intro a h; cases h
      case x_1 => intro a h; cases h
      case x_2 => intro a h; cases h
      exact stepSpec_emit_check st _ hpre.2.1 (by cases h : jsStrictEq v .undefined <;> simp [h, truthy])
  | null =>
      rw [doInspect]
      case x => intro a h; cases h
      case x_1 => intro a h; cases h
      case x_2 => intro a h; cases h
      exact stepSpec_emit_check st _ hpre.2.1 (by cases h : jsStrictEq v .null <;> simp [h, truthy])
  | bool b =>
      rw [doInspect]
      case x => intro a h; cases h
      case x_1 => intro a h; cases h
      case x_2 => intro a h; cases h
      exact stepSpec_emit_check st _ hpre.2.1 (by cases h : jsStrictEq v (.bool b) <;> simp [h, truthy])
  | num n =>
      rw [doInspect]
      case x => intro a h; cases h
      case x_1 => intro a h; cases h
      case x_2 => intro a h; cases h
      exact stepSpec_emit_check st _ hpre.2.1 (by cases h : jsStrictEq v (.num n) <;> simp [h, truthy])
  | str s' =>
      rw [doInspect]
      case x => intro a h; cases h
      case x_1 => intro a h; cases h
      case x_2 => intro a h; cases h
      exact stepSpec_emit_check st _ hpre.2.1 (by cases h : jsStrictEq v (.str s') <;> simp [h, truthy])
  | bigint i =>
      rw [doInspect]
      case x => intro a h; cases h
      case x_1 => intro a h; cases h
      case x_2 => intro a h; cases h
      exact stepSpec_emit_check st _ hpre.2.1 (by cases h : jsStrictEq v (.bigint i) <;> simp [h, truthy])
  | sym i =>
      rw [doInspect]
      case x => intro a h; cases h
      case x_1 => intro a h; cases h
      case x_2 => intro a h; cases h
      exact stepSpec_emit_check st _ hpre.2.1 (by cases h : jsStrictEq v (.sym i) <;> simp [h, truthy])

theorem inspectKey_succ_spec (fuel : Nat) (env : CbEnv)
    (hin : ∀ s v st, midPre st → StepSpec st (inspect fuel env s v st)) :
    ∀ s v k st, deepPre st → StepSpec st (inspectKey (fuel + 1) env s v k st) := by
  intro s v k st hpre
  have hmid : midPre { st with path := st.path ++ [k] } := by
    obtain ⟨h1, h2, h3⟩ := hpre
    exact ⟨h1, h2, by simpa using h3⟩
  rw [inspectKey]
  have hI := hin s v _ hmid
  rcases hie : inspect fuel env s v { st with path := st.path ++ [k] } with ⟨r1, st1⟩
  rw [hie] at hI
  cases r1 with
  | error e =>
      obtain ⟨Δ, hlog, hbal, habove, hle, herr⟩ := stepSpec_err_elim hI
      exact stepSpec_err_intro Δ hlog hbal habove hle herr
  | ok e =>
      obtain ⟨Δ, hlog, hbal, habove, hv, hfu, hp, hd, hc, hfin, hlatch, hchar⟩ :=
        stepSpec_ok_elim hI
      refine stepSpec_ok_intro Δ hlog hbal habove hv hfu ?_ hd hc hfin hlatch hchar
      rw [hp]
      simp

theorem objLoop1_spec (fuel : Nat) (env : CbEnv)
    (hkey : ∀ s v k st, deepPre st → StepSpec st (inspectKey fuel env s v k st)) :
    ∀ pending value st, deepPre st → StepSpec st (objLoop1 fuel env pending value st) := by
  intro pending
  induction pending with
  | nil =>
      intro value st hpre
      rw [objLoop1]
      exact stepSpec_pure_false st hpre.2.1
  | cons p rest ih =>
      intro value st hpre
      rcases p with ⟨key, sub⟩
      rw [objLoop1]
      split
      · exact ih value st hpre
      · have hK := hkey sub (jsGet value key) key st hpre
        rcases hke : inspectKey fuel env sub (jsGet value key) key st with ⟨r1, st1⟩
        rw [hke] at hK
        cases r1 with
        | error e => exact hK
        | ok e =>
            show StepSpec st (if truthy e = true then (.ok e, st1)
              else objLoop1 fuel env rest value st1)
            rcases ht : truthy e with hff | htt
            · rw [if_neg (by simp [ht])]
              have hframe := (stepSpec_ok_elim hK).choose_spec
              have hpre1 : deepPre st1 := by
                obtain ⟨_, _, _, _, hfu, hp, hd, _, hfin, _, _⟩ := hframe
                obtain ⟨p1, p2, p3⟩ := hpre
                exact ⟨by rw [hd]; exact p1, hfin, by rw [hfu, hp]; exact p3⟩
              exact stepSpec_seq hK ht (ih value st1 hpre1)
            · rw [if_pos rfl]
              exact hK

theorem objLoop2_spec (fuel : Nat) (env : CbEnv)
    (hkey : ∀ s v k st, deepPre st → StepSpec st (inspectKey fuel env s v k st)) :
    ∀ pending schemaEntries catchOther st, deepPre st →
      StepSpec st (objLoop2 fuel env pending schemaEntries catchOther st) := by
  intro pending
  induction pending with
  | nil =>
      intro se co st hpre
      rw [objLoop2]
      exact stepSpec_pure_false st hpre.2.1
  | cons p rest ih =>
      intro se co st hpre
      rcases p with ⟨key, sv⟩
      rw [objLoop2]
      split
      · exact ih se co st hpre
      · split
        · exact stepSpec_emit_outcome st (.bool true) hpre.2.1 (by simp [truthy])
        · have hK := hkey co sv key st hpre
          rcases hke : inspectKey fuel env co sv key st with ⟨r1, st1⟩
          rw [hke] at hK
          cases r1 with
          | error e => exact hK
          | ok e =>
              show StepSpec st (if truthy e = true then (.ok e, st1)
                else objLoop2 fuel env rest se co st1)
              rcases ht : truthy e with hff | htt
              · rw [if_neg (by simp [ht])]
                have hframe := (stepSpec_ok_elim hK).choose_spec
                have hpre1 : deepPre st1 := by
                  obtain ⟨_, _, _, _, hfu, hp, hd, _, hfin, _, _⟩ := hframe
                  obtain ⟨p1, p2, p3⟩ := hpre
                  exact ⟨by rw [hd]; exact p1, hfin, by rw [hfu, hp]; exact p3⟩
                exact stepSpec_seq hK ht (ih se co st1 hpre1)
              · rw [if_pos rfl]
                exact hK

theorem arrLoop1_spec (fuel : Nat) (env : CbEnv)
    (hkey : ∀ s v k st, deepPre st → StepSpec st (inspectKey fuel env s v k st)) :
    ∀ pending idx velems st, deepPre st →
      StepSpec st (arrLoop1 fuel env pending idx velems st) := by
  intro pending
  induction pending with
  | nil =>
      intro idx velems st hpre
      rw [arrLoop1]
      exact stepSpec_pure_false st hpre.2.1
  | cons o rest ih =>
      intro idx velems st hpre
      rw [arrLoop1]
      have hK := hkey (o.getD .undefined) ((velems.getD idx none).getD .undefined) (.idx idx) st hpre
      rcases hke : inspectKey fuel env (o.getD .undefined) ((velems.getD idx none).getD .undefined)
          (.idx idx) st with ⟨r1, st1⟩
      rw [hke] at hK
      cases r1 with
      | error e => exact hK
      | ok e =>
          show StepSpec st (if truthy e = true then (.ok e, st1)
            else arrLoop1 fuel env rest (idx + 1) velems st1)
          rcases ht : truthy e with hff | htt
          · rw [if_neg (by simp [ht])]
            have hframe := (stepSpec_ok_elim hK).choose_spec
            have hpre1 : deepPre st1 := by
              obtain ⟨_, _, _, _, hfu, hp, hd, _, hfin, _, _⟩ := hframe
              obtain ⟨p1, p2, p3⟩ := hpre
              exact ⟨by rw [hd]; exact p1, hfin, by rw [hfu, hp]; exact p3⟩
            exact stepSpec_seq hK ht (ih (idx + 1) velems st1 hpre1)
          · rw [if_pos rfl]
            exact hK

theorem arrLoop2_spec (fuel : Nat) (env : CbEnv)
    (hkey : ∀ s v k st, deepPre st → StepSpec st (inspectKey fuel env s v k st)) :
    ∀ pendingVals idx catchOther st, deepPre st →
      StepSpec st (arrLoop2 fuel env pendingVals idx catchOther st) := by
  intro pendingVals
  induction pendingVals with
  | nil =>
      intro idx co st hpre
      cases co <;> (rw [arrLoop2]; exact stepSpec_pure_false st hpre.2.1)
  | cons o rest ih =>
      intro idx co st hpre
      cases co with
      | none =>
          rw [arrLoop2]
          exact stepSpec_emit_outcome st (.bool true) hpre.2.1 (by simp [truthy])
      | some c =>
          rw [arrLoop2]
          have hK := hkey c (o.getD .undefined) (.idx idx) st hpre
          rcases hke : inspectKey fuel env c (o.getD .undefined) (.idx idx) st with ⟨r1, st1⟩
          rw [hke] at hK
          cases r1 with
          | error e => exact hK
          | ok e =>
              show StepSpec st (if truthy e = true then (.ok e, st1)
                else arrLoop2 fuel env rest (idx + 1) (some c) st1)
              rcases ht : truthy e with hff | htt
              · rw [if_neg (by simp [ht])]
                have hframe := (stepSpec_ok_elim hK).choose_spec
                have hpre1 : deepPre st1 := by
                  obtain ⟨_, _, _, _, hfu, hp, hd, _, hfin, _, _⟩ := hframe
                  obtain ⟨p1, p2, p3⟩ := hpre
                  exact ⟨by rw [hd]; exact p1, hfin, by rw [hfu, hp]; exact p3⟩
                exact stepSpec_seq hK ht (ih (idx + 1) (some c) st1 hpre1)
              · rw [if_pos rfl]
                exact hK

theorem jsOr_true_truthy (a : JsValue) : truthy (jsOr a (.bool true)) = true := by
  unfold jsOr
  split
  · assumption
  · simp [truthy]

theorem inspectObject_succ_spec (fuel : Nat) (env : CbEnv)
    (hl1 : ∀ pending value st, deepPre st → StepSpec st (objLoop1 fuel env pending value st))
    (hl2 : ∀ pending se co st, deepPre st → StepSpec st (objLoop2 fuel env pending se co st)) :
    ∀ entries v st, deepPre st → StepSpec st (inspectObject (fuel + 1) env entries v st) := by
  intro entries v st hpre
  have herrV : ∀ (e : JsErr) (stv : St),
      validateObjectSchema entries st = (.error e, stv) → StepSpec st (.error e, stv) := by
    intro e stv hvo
    obtain ⟨h1, m, hm⟩ := validateObjectSchema_err_state hvo
    subst h1
    apply stepSpec_err_intro []
    · simp [resetSt]
    · exact cbEntriesBalanced_nil
    · exact outsAbove_nil _
    · exact le_refl _
    · intro m' _
      exact ⟨rfl, clearedSt_resetSt _ _⟩
  have hmis : ∀ se : JsValue, StepSpec st (.ok (jsOr se (.bool true)),
      { st with log := st.log ++ [.outcome st.inCb (jsOr se (.bool true))] }) :=
    fun se => stepSpec_emit_check st _ hpre.2.1 (Or.inr (jsOr_true_truthy se))
  have hobjcase : ∀ (ventries : List (JsKey × JsValue)) (co : JsValue),
      StepSpec st (match objLoop1 fuel env (allEntries entries) v st with
        | (.ok e, st2) =>
            if truthy e = true then (.ok e, st2)
            else objLoop2 fuel env (allEntries ventries) entries co st2
        | r => r) := by
    intro ventries co
    have hL1 := hl1 (allEntries entries) v st hpre
    rcases hr1 : objLoop1 fuel env (allEntries entries) v st with ⟨r1, st1⟩
    rw [hr1] at hL1
    cases r1 with
    | error e => exact hL1
    | ok e1 =>
        show StepSpec st (if truthy e1 = true then (.ok e1, st1)
          else objLoop2 fuel env (allEntries ventries) entries co st1)
        rcases ht : truthy e1 with hff | htt
        · rw [if_neg (by simp [ht])]
          have hframe := (stepSpec_ok_elim hL1).choose_spec
          have hpre1 : deepPre st1 := by
            obtain ⟨_, _, _, _, hfu, hp, hd, _, hfin, _, _⟩ := hframe
            obtain ⟨p1, p2, p3⟩ := hpre
            exact ⟨by rw [hd]; exact p1, hfin, by rw [hfu, hp]; exact p3⟩
          exact stepSpec_seq hL1 ht (hl2 (allEntries ventries) entries co st1 hpre1)
        · rw [if_pos rfl]
          exact hL1
  cases v with
  | obj ventries =>
      rw [inspectObject]
      rcases hvo : validateObjectSchema entries st with ⟨rv, stv⟩
      cases rv with
      | error e => exact herrV e stv hvo
      | ok p =>
          rcases p with ⟨co, se⟩
          have hst : stv = st := validateObjectSchema_ok_state hvo
          subst hst
          exact hobjcase ventries co
  | undefined =>
      rw [inspectObject]
      rcases hvo : validateObjectSchema entries st with ⟨rv, stv⟩
      cases rv with
      | error e => exact herrV e stv hvo
      | ok p =>
          rcases p with ⟨co, se⟩
          have hst : stv = st := validateObjectSchema_ok_state hvo
          subst hst
          exact hmis se
  | null =>
      rw [inspectObject]
      rcases hvo : validateObjectSchema entries st with ⟨rv, stv⟩
      cases rv with
      | error e => exact herrV e stv hvo
      | ok p =>
          rcases p with ⟨co, se⟩
          have hst : stv = st := validateObjectSchema_ok_state hvo
          subst hst
          exact hmis se
  | bool b =>
      rw [inspectObject]
      rcases hvo : validateObjectSchema entries st with ⟨rv, stv⟩
      cases rv with
      | error e => exact herrV e stv hvo
      | ok p =>
          rcases p with ⟨co, se⟩
          have hst : stv = st := validateObjectSchema_ok_state hvo
          subst hst
          exact hmis se
  | num n =>
      rw [inspectObject]
      rcases hvo : validateObjectSchema entries st with ⟨rv, stv⟩
      cases rv with
      | error e => exact herrV e stv hvo
      | ok p =>
          rcases p with ⟨co, se⟩
          have hst : stv = st := validateObjectSchema_ok_state hvo
          subst hst
          exact hmis se
  | str s' =>
      rw [inspectObject]
      rcases hvo : validateObjectSchema entries st with ⟨rv, stv⟩
      cases rv with
      | error e => exact herrV e stv hvo
      | ok p =>
          rcases p with ⟨co, se⟩
          have hst : stv = st := validateObjectSchema_ok_state hvo
          subst hst
          exact hmis se
  | bigint i =>
      rw [inspectObject]
      rcases hvo : validateObjectSchema entries st with ⟨rv, stv⟩
      cases rv with
      | error e => exact herrV e stv hvo
      | ok p =>
          rcases p with ⟨co, se⟩
          have hst : stv = st := validateObjectSchema_ok_state hvo
          subst hst
          exact hmis se
  | sym i =>
      rw [inspectObject]
      rcases hvo : validateObjectSchema entries st with ⟨rv, stv⟩
      cases rv with
      | error e => exact herrV e stv hvo
      | ok p =>
          rcases p with ⟨co, se⟩
          have hst : stv = st := validateObjectSchema_ok_state hvo
          subst hst
          exact hmis se
  | func id =>
      rw [inspectObject]
      rcases hvo : validateObjectSchema entries st with ⟨rv, stv⟩
      cases rv with
      | error e => exact herrV e stv hvo
      | ok p =>
          rcases p with ⟨co, se⟩
          have hst : stv = st := validateObjectSchema_ok_state hvo
          subst hst
          exact hmis se
  | arr elems =>
      rw [inspectObject]
      rcases hvo : validateObjectSchema entries st with ⟨rv, stv⟩
      cases rv with
      | error e => exact herrV e stv hvo
      | ok p =>
          rcases p with ⟨co, se⟩
          have hst : stv = st := validateObjectSchema_ok_state hvo
          subst hst
          exact hmis se

theorem inspectArray_succ_spec (fuel : Nat) (env : CbEnv)
    (hal1 : ∀ pending idx velems st, deepPre st →
      StepSpec st (arrLoop1 fuel env pending idx velems st))
    (hal2 : ∀ pendingVals idx catchOther st, deepPre st →
      StepSpec st (arrLoop2 fuel env pendingVals idx catchOther st)) :
    ∀ elems v st, deepPre st → StepSpec st (inspectArray (fuel + 1) env elems v st) := by
  intro elems v st hpre
  have herrV : ∀ (e : JsErr) (stv : St),
      validateArraySchema elems st = (.error e, stv) → StepSpec st (.error e, stv) := by
    intro e stv hvo
    obtain ⟨h1, m, hm⟩ := validateArraySchema_err_state hvo
    subst h1
    apply stepSpec_err_intro []
    · simp [resetSt]
    · exact cbEntriesBalanced_nil
    · exact outsAbove_nil _
    · exact le_refl _
    · intro m' _
      exact ⟨rfl, clearedSt_resetSt _ _⟩
  have hmis : ∀ ts : Option JsValue, StepSpec st (.ok (jsOr (ts.getD .undefined) (.bool true)),
      { st with log := st.log ++ [.outcome st.inCb (jsOr (ts.getD .undefined) (.bool true))] }) :=
    fun ts => stepSpec_emit_check st _ hpre.2.1 (Or.inr (jsOr_true_truthy _))
  have harrcase : ∀ (velems : List (Option JsValue)) (maxIndex : Nat) (co : Option JsValue),
      StepSpec st (match arrLoop1 fuel env (elems.take maxIndex) 0 velems st with
        | (.ok e, st2) =>
            if truthy e = true then (.ok e, st2)
            else arrLoop2 fuel env (velems.drop maxIndex) maxIndex co st2
        | r => r) := by
    intro velems maxIndex co
    have hL1 := hal1 (elems.take maxIndex) 0 velems st hpre
    rcases hr1 : arrLoop1 fuel env (elems.take maxIndex) 0 velems st with ⟨r1, st1⟩
    rw [hr1] at hL1
    cases r1 with
    | error e => exact hL1
    | ok e1 =>
        show StepSpec st (if truthy e1 = true then (.ok e1, st1)
          else arrLoop2 fuel env (velems.drop maxIndex) maxIndex co st1)
        rcases ht : truthy e1 with hff | htt
        · rw [if_neg (by simp [ht])]
          have hframe := (stepSpec_ok_elim hL1).choose_spec
          have hpre1 : deepPre st1 := by
            obtain ⟨_, _, _, _, hfu, hp, hd, _, hfin, _, _⟩ := hframe
            obtain ⟨p1, p2, p3⟩ := hpre
            exact ⟨by rw [hd]; exact p1, hfin, by rw [hfu, hp]; exact p3⟩
          exact stepSpec_seq hL1 ht (hal2 (velems.drop maxIndex) maxIndex co st1 hpre1)
        · rw [if_pos rfl]
          exact hL1
  cases v with
  | arr velems =>
      rw [inspectArray]
      rcases hvo : validateArraySchema elems st with ⟨rv, stv⟩
      cases rv with
      | error e => exact herrV e stv hvo
      | ok p =>
          rcases p with ⟨maxIndex, co, ts⟩
          have hst : stv = st := validateArraySchema_ok_state hvo
          subst hst
          exact harrcase velems maxIndex co
  | undefined =>
      rw [inspectArray]
      rcases hvo : validateArraySchema elems st with ⟨rv, stv⟩
      cases rv with
      | error e => exact herrV e stv hvo
      | ok p =>
          rcases p with ⟨maxIndex, co, ts⟩
          have hst : stv = st := validateArraySchema_ok_state hvo
          subst hst
          exact hmis ts
  | null =>
      rw [inspectArray]
      rcases hvo : validateArraySchema elems st with ⟨rv, stv⟩
      cases rv with
      | error e => exact herrV e stv hvo
      | ok p =>
          rcases p with ⟨maxIndex, co, ts⟩
          have hst : stv = st := validateArraySchema_ok_state hvo
          subst hst
          exact hmis ts
  | bool b =>
      rw [inspectArray]
      rcases hvo : validateArraySchema elems st with ⟨rv, stv⟩
      cases rv with
      | error e => exact herrV e stv hvo
      | ok p =>
          rcases p with ⟨maxIndex, co, ts⟩
          have hst : stv = st := validateArraySchema_ok_state hvo
          subst hst
          exact hmis ts
  | num n =>
      rw [inspectArray]
      rcases hvo : validateArraySchema elems st with ⟨rv, stv⟩
      cases rv with
      | error e => exact herrV e stv hvo
      | ok p =>
          rcases p with ⟨maxIndex, co, ts⟩
          have hst : stv = st := validateArraySchema_ok_state hvo
          subst hst
          exact hmis ts
  | str s' =>
      rw [inspectArray]
      rcases hvo : validateArraySchema elems st with ⟨rv, stv⟩
      cases rv with
      | error e => exact herrV e stv hvo
      | ok p =>
          rcases p with ⟨maxIndex, co, ts⟩
          have hst : stv = st := validateArraySchema_ok_state hvo
          subst hst
          exact hmis ts
  | bigint i =>
      rw [inspectArray]
      rcases hvo : validateArraySchema elems st with ⟨rv, stv⟩
      cases rv with
      | error e => exact herrV e stv hvo
      | ok p =>
          rcases p with ⟨maxIndex, co, ts⟩
          have hst : stv = st := validateArraySchema_ok_state hvo
          subst hst
          exact hmis ts
  | sym i =>
      rw [inspectArray]
      rcases hvo : validateArraySchema elems st with ⟨rv, stv⟩
      cases rv with
      | error e => exact herrV e stv hvo
      | ok p =>
          rcases p with ⟨maxIndex, co, ts⟩
          have hst : stv = st := validateArraySchema_ok_state hvo
          subst hst
          exact hmis ts
  | func id =>
      rw [inspectArray]
      rcases hvo : validateArraySchema elems st with ⟨rv, stv⟩
      cases rv with
      | error e => exact herrV e stv hvo
      | ok p =>
          rcases p with ⟨maxIndex, co, ts⟩
          have hst : stv = st := validateArraySchema_ok_state hvo
          subst hst
          exact hmis ts
  | obj entries =>
      rw [inspectArray]
      rcases hvo : validateArraySchema elems st with ⟨rv, stv⟩
      cases rv with
      | error e => exact herrV e stv hvo
      | ok p =>
          rcases p with ⟨maxIndex, co, ts⟩
          have hst : stv = st := validateArraySchema_ok_state hvo
          subst hst
          exact hmis ts

theorem run_succ_spec (fuel : Nat) (env : CbEnv)
    (hcb : ∀ cb v k st, cbPre st → CbSpec st (runCb fuel env cb v k st)) :
    ∀ cb v st, midPre st → StepSpec st (run (fuel + 1) env cb v st) := by
  intro cb v st hpre
  obtain ⟨hd1, hfin0, hfp⟩ := hpre
  rw [run]
  have hpre1 : cbPre { st with
      values := st.values ++ [v], inCb := st.inCb + 1,
      log := st.log ++ [.cbEntry (st.funnel ++ [v]) st.path] } := by
    refine ⟨fun _ => ⟨hd1, hfp⟩, fun hf => ?_⟩
    exact absurd hf (by simp [hfin0])
  have hC := hcb cb v (currentKey st) _ hpre1
  rcases hce : runCb fuel env cb v (currentKey st)
      { st with
        values := st.values ++ [v], inCb := st.inCb + 1,
        log := st.log ++ [.cbEntry (st.funnel ++ [v]) st.path] } with ⟨r2, st2⟩
  rw [hce] at hC
  obtain ⟨Δcb, ⟨hlog2, hbal2, habove2, hle2⟩, hmono, herr2, hok2⟩ := hC
  have hle2' : st.inCb ≤ st2.inCb := le_trans (Nat.le_succ _) hle2
  have hlog2' : st2.log = st.log ++ ([Ev.cbEntry (st.funnel ++ [v]) st.path] ++ Δcb) := by
    rw [← List.append_assoc]
    exact hlog2
  have hbalAll : cbEntriesBalanced ([Ev.cbEntry (st.funnel ++ [v]) st.path] ++ Δcb) := by
    refine cbEntriesBalanced_append ?_ hbal2
    intro vs ks h
    simp at h
    rw [h.1, h.2]
    simp [hfp]
  have haboveAll : outsAbove st.inCb ([Ev.cbEntry (st.funnel ++ [v]) st.path] ++ Δcb) := by
    refine outsAbove_append _ ?_ ?_
    · intro d v' h; simp at h
    · exact outsAbove_mono (Nat.le_succ _) habove2
  cases r2 with
  | error e =>
      show StepSpec st (if st2.finished = true then (.error e, st2)
        else (.error e, resetSt true st2))
      by_cases hf2 : st2.finished = true
      · rw [if_pos hf2]
        refine stepSpec_err_intro _ hlog2' hbalAll haboveAll hle2' ?_
        intro m hm
        subst hm
        exact ⟨hf2, (herr2 m rfl).1 hf2⟩
      · rw [if_neg hf2]
        apply stepSpec_err_intro ([Ev.cbEntry (st.funnel ++ [v]) st.path] ++ Δcb)
        · simp [resetSt, hlog2']
        · exact hbalAll
        · exact haboveAll
        · exact hle2'
        · intro m hm
          exact ⟨rfl, clearedSt_resetSt _ _⟩
  | ok r =>
      show StepSpec st (if st2.finished = true then (.error (.js cantProceedMsg), st2)
        else (.ok (jsOr r (.bool false)), { st2 with
          values := st2.values.dropLast, inCb := st2.inCb - 1,
          log := st2.log ++ [.outcome st.inCb (jsOr r (.bool false))] }))
      by_cases hf2 : st2.finished = true
      · rw [if_pos hf2]
        refine stepSpec_err_intro _ hlog2' hbalAll haboveAll hle2' ?_
        intro m hm
        exact ⟨hf2, (hok2 r rfl).1 hf2⟩
      · rw [if_neg hf2]
        have hf2' : st2.finished = false := by simpa using hf2
        obtain ⟨hv2, hfu2, hp2, hd2, hc2, hep2⟩ := (hok2 r rfl).2 hf2'
        apply stepSpec_ok_intro
          ([Ev.cbEntry (st.funnel ++ [v]) st.path] ++ Δcb ++ [.outcome st.inCb (jsOr r (.bool false))])
        · simp only [hlog2', List.append_assoc]
        · refine cbEntriesBalanced_append hbalAll ?_
          intro vs ks h; simp at h
        · refine outsAbove_append _ haboveAll ?_
          intro d v' h
          simp at h
          omega
        · show st2.values.dropLast = st.values
          rw [hv2]
          simp
        · exact hfu2
        · exact hp2
        · exact hd2
        · show st2.inCb - 1 = st.inCb
          rw [hc2]
          rfl
        · exact hf2'
        · show st2.errorPath = _
          rw [hep2]
          congr 1
          simp [cmpsOf]
        · have houts : outsAt st.inCb
              ([Ev.cbEntry (st.funnel ++ [v]) st.path] ++ Δcb ++ [.outcome st.inCb (jsOr r (.bool false))])
              = [jsOr r (.bool false)] := by
            rw [outsAt_append, outsAt_append]
            have h1 : outsAt st.inCb [Ev.cbEntry (st.funnel ++ [v]) st.path] = [] := by
              simp [outsAt]
            have h2 : outsAt st.inCb Δcb = [] := by
              apply outsAt_eq_nil_of_above
              exact habove2
            have h3 : outsAt st.inCb [Ev.outcome st.inCb (jsOr r (.bool false))]
                = [jsOr r (.bool false)] := by
              simp [outsAt]
            rw [h1, h2, h3]
            simp
          rw [houts]
          apply firstErrorChar_single
          unfold jsOr
          split
          · right; assumption
          · left; rfl

theorem cbPost_comp {st st1 st2 : St} {Δ1 Δ2 : List Ev}
    (hmono2 : st1.finished = true → st2.finished = true)
    (h1 : cbPost st st1 Δ1) (h2 : cbPost st1 st2 Δ2) :
    cbPost st st2 (Δ1 ++ Δ2) := by
  refine ⟨h2.1, fun hf => ?_⟩
  have hf1 : st1.finished = false := by
    cases hx : st1.finished
    · rfl
    · exact absurd (hmono2 hx) (by simp [hf])
  obtain ⟨hv1, hfu1, hp1, hd1, hc1, hep1⟩ := h1.2 hf1
  obtain ⟨hv2, hfu2, hp2, hd2, hc2, hep2⟩ := h2.2 hf
  refine ⟨hv2.trans hv1, hfu2.trans hfu1, hp2.trans hp1, hd2.trans hd1,
    hc2.trans hc1, ?_⟩
  rw [hep2, hep1, cmpsOf_append, List.foldl_append]

theorem cbPre_of_cbPost {st st1 : St} {Δ1 : List Ev} (hpre : cbPre st)
    (hmono1 : st.finished = true → st1.finished = true)
    (hpost1 : cbPost st st1 Δ1) : cbPre st1 := by
  refine ⟨fun hf => ?_, hpost1.1⟩
  have hf0 : st.finished = false := by
    cases hx : st.finished
    · rfl
    · exact absurd (hmono1 hx) (by simp [hf])
  obtain ⟨hv1, hfu1, hp1, hd1, hc1, _⟩ := hpost1.2 hf
  obtain ⟨hd, hlen⟩ := hpre.1 hf0
  rw [hd1, hfu1, hp1]
  exact ⟨hd, hlen⟩

theorem cbSpec_comp {st st1 : St} {Δ1 : List Ev} {r : Except JsErr JsValue × St}
    (hg1 : ghostOf st st1 Δ1)
    (hmono1 : st.finished = true → st1.finished = true)
    (hpost1 : cbPost st st1 Δ1)
    (h2 : CbSpec st1 r) : CbSpec st r := by
  obtain ⟨Δ2, ⟨hlog2, hbal2, habove2, hle2⟩, hmono2, herr2, hok2⟩ := h2
  obtain ⟨hlog1, hbal1, habove1, hle1⟩ := hg1
  refine ⟨Δ1 ++ Δ2, ⟨?_, cbEntriesBalanced_append hbal1 hbal2, ?_,
    le_trans hle1 hle2⟩, fun hf => hmono2 (hmono1 hf), ?_, ?_⟩
  · rw [hlog2, hlog1, List.append_assoc]
  · exact outsAbove_append _ habove1 (outsAbove_mono hle1 habove2)
  · intro m hm
    exact cbPost_comp hmono2 hpost1 (herr2 m hm)
  · intro e he
    exact cbPost_comp hmono2 hpost1 (hok2 e he)

theorem runCb_succ_spec (fuel : Nat) (env : CbEnv)
    (hv : ∀ ev s st, vPre st → VSpec st (validatorFn fuel env ev s st))
    (hrc : ∀ cb v k st, cbPre st → CbSpec st (runCb fuel env cb v k st)) :
    ∀ cb v k st, cbPre st → CbSpec st (runCb (fuel + 1) env cb v k st) := by
  intro cb v k st hpre
  cases cb with
  | ret f =>
      rw [runCb]
      refine ⟨[], ⟨by simp, cbEntriesBalanced_nil, outsAbove_nil _, le_refl _⟩,
        fun h => h, ?_, ?_⟩
      · intro m hm; cases hm
      · intro e he
        exact ⟨hpre.2, fun _ => ⟨rfl, rfl, rfl, rfl, rfl, by simp [cmpsOf]⟩⟩
  | throwCb m =>
      rw [runCb]
      refine ⟨[], ⟨by simp, cbEntriesBalanced_nil, outsAbove_nil _, le_refl _⟩,
        fun h => h, ?_, ?_⟩
      · intro m' _
        exact ⟨hpre.2, fun _ => ⟨rfl, rfl, rfl, rfl, rfl, by simp [cmpsOf]⟩⟩
      · intro e he; cases he
  | callValidator ev sc =>
      rw [runCb]
      have hV := hv ev sc st (vPre_of_cbPre st hpre)
      rcases hvr : validatorFn fuel env ev sc st with ⟨r1, st1⟩
      rw [hvr] at hV
      obtain ⟨Δ, hg, hmono, herr, hok⟩ := hV
      refine ⟨Δ, hg, hmono, ?_, ?_⟩
      · intro m hm
        obtain ⟨hferr, hcl⟩ := herr m hm
        exact ⟨fun _ => hcl, fun hf0 => absurd hferr (by simpa using hf0)⟩
      · intro e he
        obtain ⟨hsf, hv2, hfu, hp, hd, hc, hep, _, _, hfin⟩ := hok e he
        have hd1 : 1 ≤ st.validatorDepth := (hpre.1 hsf).1
        have hne : st.validatorDepth ≠ 0 := by omega
        have hfin' : st1.finished = false := by
          rw [hfin]; simpa using hne
        exact ⟨fun hf => absurd hf (by simp [hfin']),
          fun _ => ⟨hv2, hfu, hp, hd, hc, hep⟩⟩
  | bind c kont =>
      rw [runCb]
      have hC1 := hrc c v k st hpre
      rcases h1 : runCb fuel env c v k st with ⟨r1, st1⟩
      rw [h1] at hC1
      cases r1 with
      | error e1 => exact hC1
      | ok r1v =>
          obtain ⟨Δ1, hg1, hmono1, _, hok1⟩ := hC1
          have hpost1 := hok1 r1v rfl
          exact cbSpec_comp hg1 hmono1 hpost1
            (hrc (kont r1v) v k st1 (cbPre_of_cbPost hpre hmono1 hpost1))
  | tryCatch c handler =>
      rw [runCb]
      have hC1 := hrc c v k st hpre
      rcases h1 : runCb fuel env c v k st with ⟨r1, st1⟩
      rw [h1] at hC1
      cases r1 with
      | ok r1v => exact hC1
      | error e1 =>
          cases e1 with
          | fuelOut => exact hC1
          | js m =>
              obtain ⟨Δ1, hg1, hmono1, herr1, _⟩ := hC1
              have hpost1 := herr1 m rfl
              exact cbSpec_comp hg1 hmono1 hpost1
                (hrc handler v k st1 (cbPre_of_cbPost hpre hmono1 hpost1))

theorem validatorFn_succ_spec (fuel : Nat) (env : CbEnv)
    (hin : ∀ s v st, midPre st → StepSpec st (inspect fuel env s v st) ∧
      okClearsOnFalsy (inspect fuel env s v st)) :
    ∀ ev s st, vPre st → VSpec st (validatorFn (fuel + 1) env ev s st) := by
  intro ev sc st hpre
  simp only [validatorFn]
  by_cases hg : (st.validatorDepth == 0 && st.finished) = true
  · rw [if_pos hg]
    refine ⟨[], ⟨by simp [resetAndThrow, resetSt], cbEntriesBalanced_nil,
      outsAbove_nil _, le_refl _⟩, fun _ => rfl, ?_, ?_⟩
    · intro m _
      exact ⟨rfl, clearedSt_resetSt _ _⟩
    · intro e he
      simp [resetAndThrow] at he
  · rw [if_neg hg]
    have hfin0 : st.finished = false := by
      cases hx : st.finished
      · rfl
      · have hcl := hpre.1 hx
        have : st.validatorDepth = 0 := hcl.2.2.2.2
        exact absurd (by simp [this, hx]) hg
    have key : ∀ s0 : St, s0.values = st.values → s0.funnel = st.funnel →
        s0.path = st.path → s0.errorPath = st.errorPath →
        s0.validatorDepth = st.validatorDepth + 1 → s0.finished = false →
        s0.inCb = st.inCb → s0.log = st.log →
        VSpec st (if (ev.isNone && s0.values.isEmpty) = true
          then resetAndThrow noContextMsg s0
          else
            match inspect fuel env sc
                (match ev with | some v => v | none => currentValue s0) s0 with
            | (.error e, st') => (.error e, st')
            | (.ok e, st') =>
                (.ok e, if (st'.validatorDepth - 1 == 0) = true
                  then basicResetSt true { st' with
                    validatorDepth := st'.validatorDepth - 1 }
                  else { st' with validatorDepth := st'.validatorDepth - 1 })) := by
      intro s0 hv0 hfu0 hp0 hep0 hd0 hf0 hc0 hl0
      by_cases hg2 : (ev.isNone && s0.values.isEmpty) = true
      · rw [if_pos hg2]
        refine ⟨[], ⟨by simp [resetAndThrow, resetSt, hl0], cbEntriesBalanced_nil,
          outsAbove_nil _, by simp [resetAndThrow, resetSt, hc0]⟩,
          fun hx => absurd hx (by simp [hfin0]), ?_, ?_⟩
        · intro m _
          exact ⟨rfl, clearedSt_resetSt _ _⟩
        · intro e he
          simp [resetAndThrow] at he
      · rw [if_neg hg2]
        have hmid : midPre s0 := ⟨by omega, hf0, by rw [hfu0, hp0]; exact (hpre.2 hfin0).1⟩
        generalize (match ev with | some v => v | none => currentValue s0) = value
        obtain ⟨hstep, hclear⟩ := hin sc value s0 hmid
        rcases hie : inspect fuel env sc value s0 with ⟨r1, st'⟩
        rw [hie] at hstep
        cases r1 with
        | error e =>
            obtain ⟨Δ, hlog, hbal, habove, hle, herr⟩ := stepSpec_err_elim hstep
            refine ⟨Δ, ⟨by rw [hlog, hl0], hbal, by rw [← hc0]; exact habove,
              by rw [← hc0]; exact hle⟩,
              fun hx => absurd hx (by simp [hfin0]), ?_, ?_⟩
            · intro m hm
              injection hm with hm1
              exact herr m hm1
            · intro e' he'; cases he'
        | ok e =>
            obtain ⟨Δ, hlog, hbal, habove, hv', hfu', hp', hd', hc', hfin', hlatch, hchar⟩ :=
              stepSpec_ok_elim hstep
            have hcl := hclear e (by rw [hie])
            rw [hie] at hcl
            have hd2 : st'.validatorDepth - 1 = st.validatorDepth := by
              rw [hd', hd0]
              omega
            show VSpec st (.ok e, if (st'.validatorDepth - 1 == 0) = true
              then basicResetSt true { st' with validatorDepth := st'.validatorDepth - 1 }
              else { st' with validatorDepth := st'.validatorDepth - 1 })
            refine ⟨Δ, ⟨?_, hbal, by rw [← hc0]; exact habove, ?_⟩,
              fun hx => absurd hx (by simp [hfin0]), ?_, ?_⟩
            · show (if (st'.validatorDepth - 1 == 0) = true
                  then basicResetSt true { st' with
                    validatorDepth := st'.validatorDepth - 1 }
                  else { st' with validatorDepth := st'.validatorDepth - 1 }).log
                = st.log ++ Δ
              have : ∀ b : Bool, (if b = true
                  then basicResetSt true { st' with
                    validatorDepth := st'.validatorDepth - 1 }
                  else { st' with validatorDepth := st'.validatorDepth - 1 }).log
                  = st'.log := by
                intro b; cases b <;> simp [basicResetSt]
              rw [this, hlog, hl0]
            · show st.inCb ≤ (if (st'.validatorDepth - 1 == 0) = true
                  then basicResetSt true { st' with
                    validatorDepth := st'.validatorDepth - 1 }
                  else { st' with validatorDepth := st'.validatorDepth - 1 }).inCb
              have : ∀ b : Bool, (if b = true
                  then basicResetSt true { st' with
                    validatorDepth := st'.validatorDepth - 1 }
                  else { st' with validatorDepth := st'.validatorDepth - 1 }).inCb
                  = st'.inCb := by
                intro b; cases b <;> simp [basicResetSt]
              rw [this, hc', hc0]
            · intro m hm; cases hm
            · intro e' he'
              injection he' with he1
              subst he1
              by_cases hz : (st'.validatorDepth - 1 == 0) = true
              · rw [if_pos hz]
                refine ⟨hfin0, by simp [basicResetSt, hv', hv0],
                  by simp [basicResetSt, hfu', hfu0], by simp [basicResetSt, hp', hp0],
                  by simp [basicResetSt]; omega, by simp [basicResetSt, hc', hc0],
                  by simp [basicResetSt, hlatch, hep0], ?_, ?_, ?_⟩
                · rw [← hc0]; exact hchar
                · intro ht
                  simp [basicResetSt]
                  exact hcl ht
                · rw [hd2] at hz
                  simp [basicResetSt, hz]
              · rw [if_neg hz]
                refine ⟨hfin0, by simp [hv', hv0], by simp [hfu', hfu0],
                  by simp [hp', hp0], by simp; omega, by simp [hc', hc0],
                  by simp [hlatch, hep0], ?_, ?_, ?_⟩
                · rw [← hc0]; exact hchar
                · intro ht
                  simpa using hcl ht
                · rw [hd2] at hz
                  simp [hfin']
                  simpa using hz
    by_cases hz : (st.validatorDepth == 0) = true
    · rw [if_pos hz]
      exact key { st with started := true, validatorDepth := st.validatorDepth + 1 }
        rfl rfl rfl rfl rfl hfin0 rfl rfl
    · rw [if_neg hz]
      exact key { st with validatorDepth := st.validatorDepth + 1 }
        rfl rfl rfl rfl rfl hfin0 rfl rfl

theorem engineInv (env : CbEnv) : ∀ fuel, EngineInv env fuel := by
  intro fuel
  induction fuel with
  | zero =>
      refine ⟨?_, ?_, ?_, ?_, ?_, ?_, ?_, ?_⟩
      · intro ev s st _
        rw [validatorFn]
        exact vSpec_fuelOut st
      · intro s v st _
        rw [inspect]
        exact ⟨stepSpec_fuelOut st, fun e he => by cases he⟩
      · intro s v st _
        rw [doInspect]
        exact stepSpec_fuelOut st
      · intro s v k st _
        rw [inspectKey]
        exact stepSpec_fuelOut st
      · intro entries v st _
        rw [inspectObject]
        exact stepSpec_fuelOut st
      · intro elems v st _
        rw [inspectArray]
        exact stepSpec_fuelOut st
      · intro cb v st _
        rw [run]
        exact stepSpec_fuelOut st
      · intro cb v k st _
        rw [runCb]
        exact cbSpec_fuelOut st
  | succ fuel ih =>
      obtain ⟨hv, hin, hdo, hkey, hobj, harr, hrun, hrc⟩ := ih
      exact ⟨validatorFn_succ_spec fuel env hin,
        inspect_succ_spec fuel env hdo,
        doInspect_succ_spec fuel env hrun hobj harr,
        inspectKey_succ_spec fuel env (fun s v st h => (hin s v st h).1),
        inspectObject_succ_spec fuel env (objLoop1_spec fuel env hkey)
          (objLoop2_spec fuel env hkey),
        inspectArray_succ_spec fuel env (arrLoop1_spec fuel env hkey)
          (arrLoop2_spec fuel env hkey),
        run_succ_spec fuel env hrc,
        runCb_succ_spec fuel env hv hrc⟩

/-! ### The object comparator executes the declared visit plan -/

theorem processPlan_append (fuel : Nat) (env : CbEnv) (p1 p2 : List PlanStep)
    (st : St) :
    processPlan fuel env (p1 ++ p2) st =
      match processPlan fuel env p1 st with
      | (.ok e, st') =>
          if truthy e = true then (.ok e, st') else processPlan fuel env p2 st'
      | r => r := by
  induction p1 generalizing st with
  | nil =>
      simp [processPlan, truthy]
  | cons step rest ih =>
      cases step with
      | check key sch sub =>
          show processPlan fuel env (.check key sch sub :: (rest ++ p2)) st = _
          rw [processPlan, processPlan]
          rcases hk : inspectKey fuel env sch sub key st with ⟨r1, st1⟩
          cases r1 with
          | error e => rfl
          | ok e =>
              cases ht : truthy e
              · simpa [ht] using ih st1
              · simp [ht]
      | stopTrue =>
          show processPlan fuel env (.stopTrue :: (rest ++ p2)) st = _
          rw [processPlan, processPlan]
          simp [truthy]

theorem objLoop1_eq_plan (fuel : Nat) (env : CbEnv) :
    ∀ (pending : List (JsKey × JsValue)) (value : JsValue) (st : St),
    objLoop1 fuel env pending value st =
      processPlan fuel env
        ((pending.filter (fun p => !reservedSymKey p.1)).map
          (fun p => .check p.1 p.2 (jsGet value p.1))) st := by
  intro pending
  induction pending with
  | nil =>
      intro value st
      simp [objLoop1, processPlan]
  | cons p rest ih =>
      intro value st
      rcases p with ⟨key, sub⟩
      rw [objLoop1]
      by_cases hres : reservedSymKey key = true
      · rw [if_pos hres]
        rw [List.filter_cons]
        simp only [hres, Bool.not_true, Bool.false_eq_true, if_false]
        exact ih value st
      · rw [if_neg hres]
        rw [List.filter_cons]
        simp only [Bool.not_eq_true] at hres
        simp only [hres, Bool.not_false, if_true, List.map_cons]
        rw [processPlan]
        rcases hk : inspectKey fuel env sub (jsGet value key) key st with ⟨r1, st1⟩
        cases r1 with
        | error e => rfl
        | ok e =>
            cases ht : truthy e
            · simpa [ht] using ih value st1
            · simp [ht]

theorem objLoop2_eq_plan (fuel : Nat) (env : CbEnv)
    (schemaEntries : List (JsKey × JsValue)) (catchOther : JsValue) :
    ∀ (pending : List (JsKey × JsValue)) (st : St),
    objLoop2 fuel env pending schemaEntries catchOther st =
      processPlan fuel env
        ((pending.filter (fun p => !jsHasProp (.obj schemaEntries) p.1)).map
          (fun p => if isUndefV catchOther then .stopTrue
            else .check p.1 catchOther p.2)) st := by
  intro pending
  induction pending with
  | nil =>
      intro st
      simp [objLoop2, processPlan]
  | cons p rest ih =>
      intro st
      rcases p with ⟨key, sv⟩
      rw [objLoop2]
      by_cases hh : jsHasProp (.obj schemaEntries) key = true
      · rw [if_pos hh]
        rw [List.filter_cons]
        simp only [hh, Bool.not_true, Bool.false_eq_true, if_false]
        exact ih st
      · rw [if_neg hh]
        rw [List.filter_cons]
        simp only [Bool.not_eq_true] at hh
        simp only [hh, Bool.not_false, if_true, List.map_cons]
        by_cases hu : isUndefV catchOther = true
        · rw [if_pos hu]
          simp only [hu, if_true]
          rw [processPlan]
        · rw [if_neg hu]
          simp only [hu, Bool.false_eq_true, if_false]
          rw [processPlan]
          rcases hk : inspectKey fuel env catchOther sv key st with ⟨r1, st1⟩
          cases r1 with
          | error e => rfl
          | ok e =>
              cases ht : truthy e
              · simpa [ht, hu] using ih st1
              · simp [ht]

/-! ### Helper lemmas for the top-level results -/

theorem vPre_initSt : vPre initSt := by
  refine ⟨fun h => ?_, fun _ => ⟨rfl, fun _ => ⟨rfl, rfl, rfl⟩⟩⟩
  cases h

theorem nvValidate_vspec (env : CbEnv) (fuel : Nat) (value schema : JsValue) :
    VSpec initSt (nvValidate env fuel value schema) :=
  (engineInv env fuel).1 (some value) schema initSt vPre_initSt

theorem jsStrictEq_nan (v : JsValue) : jsStrictEq v (.num .nan) = false := by
  cases v with
  | num n => cases n <;> rfl
  | _ => rfl

theorem arrTailScan_ok_shape {st : St} {r : Option JsValue × Option JsValue}
    {st' : St} : ∀ {tail : List (Option JsValue)} {f t : Option JsValue},
    arrTailScan tail f t st = (.ok r, st') →
    (∀ o ∈ tail, isEndStop o = false) ∧
    tail.countP isFuncSlot + (if f.isSome then 1 else 0) ≤ 1 ∧
    tail.countP isTruthyNonFuncSlot + (if t.isSome then 1 else 0) ≤ 1 ∧
    (∀ v, some v ∈ tail → isFuncV v = true ∨ truthy v = true) := by
  intro tail
  induction tail with
  | nil =>
      intro f t h
      refine ⟨?_, ?_, ?_, ?_⟩
      · intro o ho; cases ho
      · cases f <;> simp
      · cases t <;> simp
      · intro v hv; cases hv
  | cons o rest ih =>
      intro f t h
      rw [arrTailScan] at h
      by_cases he : isEndStop o = true
      · rw [if_pos he] at h
        simp [resetAndThrow] at h
      · rw [if_neg he] at h
        simp only [Bool.not_eq_true] at he
        by_cases hf : isFuncV (o.getD .undefined) = true
        · rw [if_pos hf] at h
          have ho : o = some (o.getD .undefined) := by
            cases o with
            | none => simp [isFuncV] at hf
            | some v => rfl
          cases f with
          | some fv => simp [resetAndThrow] at h
          | none =>
              obtain ⟨h1, h2, h3, h4⟩ := ih h
              have hslotF : isFuncSlot o = true := by
                rw [ho]; simpa [isFuncSlot] using hf
              have hslotT : isTruthyNonFuncSlot o = false := by
                rw [ho]; simp [isTruthyNonFuncSlot, hf]
              refine ⟨?_, ?_, ?_, ?_⟩
              · intro o' ho'
                rcases List.mem_cons.1 ho' with h' | h'
                · rw [h', he]
                · exact h1 o' h'
              · rw [List.countP_cons, hslotF]
                simpa using h2
              · rw [List.countP_cons, hslotT]
                simpa using h3
              · intro v hv
                rcases List.mem_cons.1 hv with h' | h'
                · left
                  rw [ho] at h'
                  injection h' with h''
                  rw [h'']
                  exact hf
                · exact h4 v h'
        · rw [if_neg hf] at h
          simp only [Bool.not_eq_true] at hf
          by_cases ht : truthy (o.getD .undefined) = true
          · rw [if_pos ht] at h
            have ho : o = some (o.getD .undefined) := by
              cases o with
              | none => simp [truthy] at ht
              | some v => rfl
            cases t with
            | some tv => simp [resetAndThrow] at h
            | none =>
                obtain ⟨h1, h2, h3, h4⟩ := ih h
                have hslotF : isFuncSlot o = false := by
                  rw [ho]; simp [isFuncSlot, hf]
                have hslotT : isTruthyNonFuncSlot o = true := by
                  rw [ho]; simp [isTruthyNonFuncSlot, hf, ht]
                refine ⟨?_, ?_, ?_, ?_⟩
                · intro o' ho'
                  rcases List.mem_cons.1 ho' with h' | h'
                  · rw [h', he]
                  · exact h1 o' h'
                · rw [List.countP_cons, hslotF]
                  simpa using h2
                · rw [List.countP_cons, hslotT]
                  simpa using h3
                · intro v hv
                  rcases List.mem_cons.1 hv with h' | h'
                  · right
                    rw [ho] at h'
                    injection h' with h''
                    rw [h'']
                    exact ht
                  · exact h4 v h'
          · rw [if_neg ht] at h
            simp [resetAndThrow] at h

theorem validateArraySchema_ok_not_malformed {elems : List (Option JsValue)}
    {st : St} {r : Nat × Option JsValue × Option JsValue} {st' : St}
    (h : validateArraySchema elems st = (.ok r, st')) :
    ¬ malformedArraySchema elems := by
  simp only [validateArraySchema] at h
  by_cases hb : elems.any badArraySym = true
  · rw [if_pos hb] at h
    simp [resetAndThrow] at h
  · rw [if_neg hb] at h
    by_cases hl : elems.length > endIndexOf elems + 3
    · rw [if_pos hl] at h
      simp [resetAndThrow] at h
    · rw [if_neg hl] at h
      rcases hts : arrTailScan (elems.drop (endIndexOf elems + 1)) none none st with
        ⟨rts, stts⟩
      rw [hts] at h
      cases rts with
      | error e => simp at h
      | ok p =>
          obtain ⟨h1, h2, h3, h4⟩ := arrTailScan_ok_shape hts
          intro hmal
          have hlen : (elems.drop (endIndexOf elems + 1)).length ≤ 2 := by
            rw [List.length_drop]
            omega
          simp only [malformedArraySchema] at hmal
          rcases hmal with hm | hm | hm | hm | hm
          · omega
          · obtain ⟨o, ho, hoe⟩ := hm
            rw [h1 o ho] at hoe
            cases hoe
          · have h2' : (elems.drop (endIndexOf elems + 1)).countP isFuncSlot ≤ 1 :=
              le_trans (Nat.le_add_right _ _) h2
            omega
          · have h3' : (elems.drop (endIndexOf elems + 1)).countP isTruthyNonFuncSlot ≤ 1 :=
              le_trans (Nat.le_add_right _ _) h3
            omega
          · obtain ⟨v, hv, hvf, hvt⟩ := hm
            rcases h4 v hv with h' | h'
            · rw [h'] at hvf; cases hvf
            · rw [h'] at hvt; cases hvt

theorem nvValidate_env0_eval :
    nvValidate env0 6 (.bool true) (.func 0) = (.ok (.bool false), stOk0) := by
  simp [nvValidate, validatorFn, inspect, doInspect, inspectKey, inspectObject,
    objLoop1, objLoop2, inspectArray, arrLoop1, arrLoop2, run, runCb, env0,
    initSt, stOk0, currentValue, currentKey, truthy, jsOr, basicResetSt, resetSt,
    resetAndThrow, jsStrictEq, jsNumEq]

theorem nvValidate_envThrow_eval :
    nvValidate envThrow 8 (.bool true) (.func 0) = (.error (.js "custom"), stThrow) := by
  simp [nvValidate, validatorFn, inspect, doInspect, run, runCb, envThrow,
    initSt, stThrow, currentValue, currentKey, truthy, jsOr, basicResetSt,
    resetSt, resetAndThrow]

theorem nvValidate_envSwallow_eval :
    (nvValidate envSwallow 12 (.bool true) (.func 0)).1 =
      .error (.js cantProceedMsg) := by
  simp [nvValidate, validatorFn, inspect, doInspect, run, runCb, envSwallow,
    initSt, currentValue, currentKey, truthy, jsOr, basicResetSt,
    resetSt, resetAndThrow, cantProceedMsg]

theorem nvValidate_dragon_eval :
    (nvValidate dragonEnv 20 dragonValue dragonSchema).1 = .ok (.bool false) ∧
    (nvValidate dragonEnv 20 dragonValue dragonSchema).2.errorPath = none ∧
    (nvValidate dragonEnv 20 dragonValue dragonSchema).2.finished = true := by
  refine ⟨?_, ?_, ?_⟩ <;>
  simp [nvValidate, validatorFn, inspect, doInspect, inspectKey, inspectObject,
    objLoop1, objLoop2, inspectArray, arrLoop1, arrLoop2, run, runCb, dragonEnv,
    dragonValue, dragonSchema, initSt, currentValue, currentKey, truthy, jsOr,
    basicResetSt, resetSt, resetAndThrow, jsStrictEq, jsNumEq,
    validateObjectSchema, validateArraySchema, arrTailScan, allEntries,
    sortByIdx, insertByIdx, jsHasProp, jsGet, reservedSymKey, isEndStop,
    endIndexOf, badArraySym, isFuncV, isUndefV, JsKey.isIdx, JsKey.isStr,
    JsKey.isSym, JsKey.idxVal, isObjectV, isArrayV]

/-! ### The claims -/

/-- Claim C1: a completed validation call returns either the falsy sentinel
`false` — when every check outcome of the call's own traversal (coerced
callback results, literal comparisons, shape-mismatch sentinels) was
falsy — or the first truthy check outcome: the truthy value produced by
the first callback whose result was truthy, or the supplied override, or
the generic sentinel `true` recorded for a plain structural mismatch. -/
theorem C1_result_first_truthy (env : CbEnv) (fuel : Nat)
    (value schema e : JsValue) (st' : St)
    (h : nvValidate env fuel value schema = (.ok e, st')) :
    ∃ Δ, st'.log = Δ ∧ firstErrorChar (outsAt 0 Δ) e := by
  have hs := nvValidate_vspec env fuel value schema
  rw [h] at hs
  obtain ⟨Δ, ⟨hlog, _, _, _⟩, _, _, hok⟩ := hs
  obtain ⟨_, _, _, _, _, _, _, hchar, _, _⟩ := hok e rfl
  exact ⟨Δ, by simpa [initSt] using hlog, hchar⟩

theorem C1_result_first_truthy_witness :
    ∃ Δ, stOk0.log = Δ ∧ firstErrorChar (outsAt 0 Δ) (.bool false) :=
  C1_result_first_truthy env0 6 (.bool true) (.func 0) (.bool false) stOk0
    nvValidate_env0_eval

/-- Claim C2: with a well-formed schema configuration, comparing an object
value against an object schema processes exactly the claimed visit plan:
the declared schema keys first — integer-like keys ascending, then
textual keys in declaration order, then symbol keys in declaration
order — each recursed into with the value's corresponding member
(`undefined` when absent), then the value's own members not declared in
the schema, in the same grouping, each routed to the catch-remaining
callback when one is configured and otherwise stopping with `true` at the
first such member. -/
theorem C2_object_visit_order (fuel : Nat) (env : CbEnv)
    (entries ventries : List (JsKey × JsValue)) (st : St) (co se : JsValue)
    (hcfg : validateObjectSchema entries st = (.ok (co, se), st)) :
    inspectObject (fuel + 1) env entries (.obj ventries) st =
      processPlan fuel env (objectVisitPlan entries ventries co) st := by
  rw [inspectObject, hcfg]
  rw [objectVisitPlan, processPlan_append]
  show (match objLoop1 fuel env (allEntries entries) (JsValue.obj ventries) st with
    | (Except.ok e, st2) =>
        if truthy e = true then ((Except.ok e : Except JsErr JsValue), st2)
        else objLoop2 fuel env (allEntries ventries) entries co st2
    | r => r) = _
  rw [objLoop1_eq_plan]
  rcases h1 : processPlan fuel env
      (((allEntries entries).filter (fun p => !reservedSymKey p.1)).map
        (fun p => .check p.1 p.2 (jsGet (.obj ventries) p.1))) st with ⟨r1, st1⟩
  rw [h1]
  cases r1 with
  | error e => rfl
  | ok e =>
      cases ht : truthy e
      · simpa [ht] using objLoop2_eq_plan fuel env entries co (allEntries ventries) st1
      · simp [ht]

theorem C2_object_visit_order_witness :
    inspectObject 6 env0 entriesW (.obj ventriesW) initSt =
      processPlan 5 env0 (objectVisitPlan entriesW ventriesW .undefined) initSt :=
  C2_object_visit_order 5 env0 entriesW ventriesW initSt .undefined .undefined (by rfl)

/-- Claim C3: `errorPath()` throws before the session has finished; after a
completed top-level call it returns the latched path — the key-stack
snapshot of the first failing comparison that no later successful
comparison superseded (a successful comparison clears the latch, a
failing one latches its key stack only when none is latched) — and `null`
both when the final result was falsy and when the session was aborted by
an exception. -/
theorem C3_error_path_latch (env : CbEnv) (fuel : Nat) (value schema : JsValue) :
    (∀ e st', nvValidate env fuel value schema = (.ok e, st') →
      st'.finished = true ∧
      errorPathFn st' = (.ok st'.errorPath, st') ∧
      (∃ Δ, st'.log = Δ ∧ st'.errorPath = latchSummary (cmpsOf Δ)) ∧
      (truthy e = false → st'.errorPath = none)) ∧
    (∀ m st', nvValidate env fuel value schema = (.error (.js m), st') →
      errorPathFn st' = (.ok none, st')) ∧
    (∀ st : St, st.finished = false →
      errorPathFn st =
        (.error (.js "errorPath() called before validation is completed"), st)) := by
  refine ⟨?_, ?_, ?_⟩
  · intro e st' h
    have hs := nvValidate_vspec env fuel value schema
    rw [h] at hs
    obtain ⟨Δ, ⟨hlog, _, _, _⟩, _, _, hok⟩ := hs
    obtain ⟨_, _, _, _, _, _, hep, _, hfal, hfin⟩ := hok e rfl
    have hfin' : st'.finished = true := by rw [hfin]; rfl
    refine ⟨hfin', ?_, ⟨Δ, by simpa [initSt] using hlog, ?_⟩, hfal⟩
    · simp [errorPathFn, hfin']
    · rw [hep]
      exact latchSummary_eq_foldl _
  · intro m st' h
    have hs := nvValidate_vspec env fuel value schema
    rw [h] at hs
    obtain ⟨Δ, _, _, herr, _⟩ := hs
    obtain ⟨hfin, hcl⟩ := herr m rfl
    have hfin' : st'.finished = true := hfin
    have hep : st'.errorPath = none := hcl.2.2.2.1
    simp [errorPathFn, hfin', hep]
  · intro st h
    simp [errorPathFn, h]

theorem C3_error_path_latch_witness :
    stOk0.finished = true ∧
    errorPathFn stOk0 = (.ok stOk0.errorPath, stOk0) ∧
    (∃ Δ, stOk0.log = Δ ∧ stOk0.errorPath = latchSummary (cmpsOf Δ)) ∧
    (truthy (.bool false) = false → stOk0.errorPath = none) :=
  (C3_error_path_latch env0 6 (.bool true) (.func 0)).1 (.bool false) stOk0
    nvValidate_env0_eval

/-- Claim C4 (amended): validating `{ type: 'dragon', position: [1, 'x'] }`
against `{ type: v => v !== 'dragon', position: [() => false, () => false] }`
returns the falsy sentinel `false` — the value is valid, since the `type`
callback returns `false` on `'dragon'` and both position callbacks return
`false` — and `errorPath()` afterwards returns `null`, not
`['position', 1]` as the specification's example states. -/
theorem C4_dragon_example :
    (nvValidate dragonEnv 20 dragonValue dragonSchema).1 = .ok (.bool false) ∧
    errorPathFn (nvValidate dragonEnv 20 dragonValue dragonSchema).2 =
      (.ok none, (nvValidate dragonEnv 20 dragonValue dragonSchema).2) := by
  obtain ⟨h1, h2, h3⟩ := nvValidate_dragon_eval
  refine ⟨h1, ?_⟩
  simp [errorPathFn, h3, h2]

/-- Claim C4 counterexample to the specification's example: the call does
not return a truthy error, and the latched error path afterwards is not
`['position', 1]`. -/
theorem C4_dragon_counterexample :
    ¬ (∃ e, (nvValidate dragonEnv 20 dragonValue dragonSchema).1 = .ok e ∧
        truthy e = true) ∧
    (nvValidate dragonEnv 20 dragonValue dragonSchema).2.errorPath ≠
      some [.str "position", .idx 1] := by
  obtain ⟨h1, h2, h3⟩ := nvValidate_dragon_eval
  constructor
  · rintro ⟨e, he, ht⟩
    rw [h1] at he
    injection he with he'
    rw [← he'] at ht
    simp [truthy] at ht
  · rw [h2]
    simp

/-- Claim C5: deferred (safe) navigation never raises on a missing member:
reading any property of a wrapper whose underlying value does not own it
resolves to `undefined`, so the chain `root().a.b.c` on `{}` resolves to
`undefined`; anchors that are themselves structurally invalid still
throw — `up(n)` beyond the available ancestors resets the session and
raises, while within bounds it returns the requested ancestor. -/
theorem C5_safe_navigation :
    (∀ value p, jsHasProp value (toPropKey p) = false → safeGet value p = .undefined) ∧
    (∀ st : St, st.funnel = [.obj []] →
      rootFn st = (.ok (.obj []), st) ∧
      safeGet (safeGet (safeGet (.obj []) (.str "a")) (.str "b")) (.str "c") = .undefined) ∧
    (∀ (st : St) levels, st.funnel.length ≤ levels →
      upFn levels st =
        (.error (.js "up() call navigates above any object or array"),
          resetSt true st)) ∧
    (∀ (st : St) levels, levels < st.funnel.length →
      upFn levels st =
        (.ok (st.funnel.getD (st.funnel.length - 1 - levels) .undefined), st)) := by
  refine ⟨?_, ?_, ?_, ?_⟩
  · intro value p h
    simp [safeGet, h]
  · intro st hf
    exact ⟨by simp [rootFn, hf], rfl⟩
  · intro st levels h
    rw [upFn, if_pos h]
    rfl
  · intro st levels h
    rw [upFn, if_neg (by omega)]

theorem C5_safe_navigation_witness :
    safeGet (.obj []) (.str "a") = .undefined ∧
    upFn 0 initSt =
      (.error (.js "up() call navigates above any object or array"),
        resetSt true initSt) :=
  ⟨C5_safe_navigation.1 (.obj []) (.str "a") rfl,
   C5_safe_navigation.2.2.1 initSt 0 (by simp [initSt])⟩

/-- Claim C6 (amended): the deferred-matcher protocol holds when the value
stack is non-empty: for a function argument distinct from the current
value the matcher runs the callback in deferred mode (`safeDepth + 1`),
then applies the predicate to the unwrapped value of a consumable
wrapper, re-raises the callback's exception, or resets the session and
throws the protocol violation when the callback's result is not a
consumable wrapper.  With an empty value stack the predicate is instead
applied to the function itself — see the counterexample. -/
theorem C6_matcher_deferred_protocol (pred : JsValue → JsValue) (fv : JsValue)
    (body : Nat → SafeRes) (st : St) (hne : st.values ≠ [])
    (hf : isFuncV fv = true) (hd : jsStrictEq (currentValue st) fv = false) :
    (∀ v, body (st.safeDepth + 1) = .wrapped v →
      enhancedMatcherFn pred fv body st = (.ok (pred v), st)) ∧
    (∀ m, body (st.safeDepth + 1) = .raise m →
      enhancedMatcherFn pred fv body st = (.error (.js m), st)) ∧
    (∀ v, body (st.safeDepth + 1) = .plain v →
      enhancedMatcherFn pred fv body st =
        (.error (.js "Callback did not perform traversal or did not return its result"),
          resetSt true st)) := by
  have hlen : 0 < st.values.length := List.length_pos.mpr hne
  refine ⟨?_, ?_, ?_⟩
  · intro v hv
    simp [enhancedMatcherFn, hlen, hf, hd, hv]
  · intro m hm
    simp [enhancedMatcherFn, hlen, hf, hd, hm]
  · intro v hv
    simp [enhancedMatcherFn, hlen, hf, hd, hv, resetAndThrow]

theorem C6_matcher_deferred_protocol_witness :
    enhancedMatcherFn matcherDefined (.func 0)
        (fun d => .wrapped (.num (.fin d))) stC6 =
      (.ok (matcherDefined (.num (.fin 1))), stC6) :=
  (C6_matcher_deferred_protocol matcherDefined (.func 0)
      (fun d => .wrapped (.num (.fin d))) stC6 (by simp [stC6]) rfl rfl).1
    (.num (.fin 1)) rfl

/-- Claim C6 counterexample to the unamended claim: with an empty value
stack the matcher applies its predicate directly to the function
argument — it neither runs the callback (which here would return a
non-wrapper) nor raises the protocol violation, even though the argument
is a function distinct from the current value. -/
theorem C6_plain_application_counterexample :
    isFuncV (.func 0) = true ∧
    jsStrictEq (currentValue initSt) (.func 0) = false ∧
    enhancedMatcherFn matcherDefined (.func 0) (fun _ => .plain .undefined) initSt =
      (.ok (.bool true), initSt) :=
  ⟨rfl, rfl, rfl⟩

/-- Claim C7: a malformed array schema — more than two slots after the
end-of-regular marker, a second end marker, more than one catch-remaining
callback, more than one override, or a falsy override — makes the
validation raise an exception that resets the whole session (a protocol
violation, not a truthy validation result), and it does so before the
inspected value is even examined, hence for values of any shape. -/
theorem C7_malformed_array_schema (elems : List (Option JsValue))
    (hmal : malformedArraySchema elems) (fuel : Nat) (env : CbEnv)
    (v : JsValue) (st : St) :
    (∃ m, validateArraySchema elems st = (.error (.js m), resetSt true st)) ∧
    (∃ m, (inspectArray (fuel + 1) env elems v st).1 = .error (.js m)) := by
  rcases hv : validateArraySchema elems st with ⟨r, st'⟩
  cases r with
  | ok p => exact absurd hmal (validateArraySchema_ok_not_malformed hv)
  | error e =>
      obtain ⟨hst, m, hm⟩ := validateArraySchema_err_state hv
      subst hst
      subst hm
      refine ⟨⟨m, rfl⟩, ⟨m, ?_⟩⟩
      rw [inspectArray, hv]

theorem C7_malformed_array_schema_witness :
    (∃ m, validateArraySchema elemsBad initSt =
      (.error (.js m), resetSt true initSt)) ∧
    (∃ m, (inspectArray 3 env0 elemsBad (.bool true) initSt).1 = .error (.js m)) :=
  C7_malformed_array_schema elemsBad
    (Or.inl (by simp [elemsBad, endIndexOf, isEndStop, endSymId]))
    2 env0 (.bool true) initSt

/-- Claim C8: an exception thrown inside a schema callback propagates out of
the top-level call unchanged, with the session forced into the finished
(and cleared) state; a callback that swallows such an exception and
returns normally makes the engine raise the distinct post-error
continuation fault instead of resuming. -/
theorem C8_callback_exception (env : CbEnv) (fuel : Nat) (value schema : JsValue) :
    (∀ m st', nvValidate env fuel value schema = (.error (.js m), st') →
      st'.finished = true ∧ clearedSt st') ∧
    nvValidate envThrow 8 (.bool true) (.func 0) = (.error (.js "custom"), stThrow) ∧
    (nvValidate envSwallow 12 (.bool true) (.func 0)).1 =
      .error (.js cantProceedMsg) := by
  refine ⟨?_, nvValidate_envThrow_eval, nvValidate_envSwallow_eval⟩
  intro m st' h
  have hs := nvValidate_vspec env fuel value schema
  rw [h] at hs
  obtain ⟨Δ, _, _, herr, _⟩ := hs
  exact herr m rfl

theorem C8_callback_exception_witness :
    stThrow.finished = true ∧ clearedSt stThrow :=
  (C8_callback_exception envThrow 8 (.bool true) (.func 0)).1 "custom" stThrow
    nvValidate_envThrow_eval

/-- Claim C9: every callback-entry snapshot recorded during a validation
session satisfies `len(ValueStack) = len(KeyStack) + 1`: the ValueStack
(the chain of entered containers plus the current value) always has
exactly one more element than the key stack, including during nested
re-entries of the validator from inside callbacks. -/
theorem C9_stack_invariant (env : CbEnv) (fuel : Nat) (value schema : JsValue)
    (r : Except JsErr JsValue) (st' : St)
    (h : nvValidate env fuel value schema = (r, st')) :
    ∀ vs ks, Ev.cbEntry vs ks ∈ st'.log → vs.length = ks.length + 1 := by
  have hs := nvValidate_vspec env fuel value schema
  rw [h] at hs
  obtain ⟨Δ, ⟨hlog, hbal, _, _⟩, _⟩ := hs
  intro vs ks hm
  apply hbal
  rw [hlog] at hm
  simpa [initSt] using hm

theorem C9_stack_invariant_witness :
    ([JsValue.bool true] : List JsValue).length = ([] : List JsKey).length + 1 :=
  C9_stack_invariant env0 6 (.bool true) (.func 0) (.ok (.bool false)) stOk0
    nvValidate_env0_eval [.bool true] [] (by simp [stOk0])

/-- Claim C10: literal comparison is strict inequality and `NaN` is strictly
equal to nothing, itself included, so validating any value against the
literal schema `NaN` returns the generic error `true` — no value
validates successfully against a `NaN` literal. -/
theorem C10_nan_literal (env : CbEnv) (fuel : Nat) (v : JsValue) :
    (nvValidate env (fuel + 3) v (.num .nan)).1 = .ok (.bool true) := by
  simp [nvValidate, validatorFn, inspect, doInspect, initSt, currentValue,
    truthy, basicResetSt, jsStrictEq_nan]
